import Mathlib

set_option maxRecDepth 4000

/-!
Verification of the SyndromeLearner rule-induction core against its
natural-language specification.  The definitions below are shallow embeddings
of the C++ sources:

* `rule_evaluation_label_wise_regularized` (RegularizedLabelWiseRuleEvaluation)
* `statistics_label_wise_common.hpp` (LabelWiseStatistics, StatisticsSubset)
* `thresholds_exact.cpp` (adjustSplit, filterCurrentVector, applyPrediction)
* `rule_refinement_exact.cpp` (ExactRuleRefinement::findRefinement)
* `rule_induction_top_down.cpp` (TopDownRuleInduction::induceRule)
* `rule_model_induction_sequential.cpp` (SequentialRuleModelInduction)

Machine integers (`uint32`) are modelled as `ℕ` with explicit reduction
modulo `2 ^ 32` wherever overflow or underflow is reachable.  Floating-point
(`float32` / `float64`) quantities are modelled as exact rationals; all inputs
of the score computation are integer counts, so the infinite-precision values
are computed.  The only float behaviour that matters to the claims is that a
zero denominator produces a non-finite score, which is modelled explicitly.
-/

namespace SyndromeLearner

/-- The modulus of `uint32` arithmetic. -/
def U32 : ℕ := 2 ^ 32

/-- One `uint32` increment (`x += 1` on a `uint32`). -/
def u32add1 (x : ℕ) : ℕ := (x + 1) % U32

/-- One `uint32` decrement (`x -= 1` on a `uint32`): two's-complement wraparound. -/
def u32sub1 (x : ℕ) : ℕ := (x + (U32 - 1)) % U32

/-- Subtraction of `uint32` values `a - b` (both `< 2^32`), with wraparound. -/
def u32sub (a b : ℕ) : ℕ := (a + (U32 - b % U32)) % U32

/-! ## Rule evaluation (C5 of the spec): `RegularizedLabelWiseRuleEvaluation` -/

/-- The running sums accumulated by the loop in
`RegularizedLabelWiseRuleEvaluation::calculateLabelWisePrediction`:
`xSum`, `xSquaredSum`, `ySum`, `ySquaredSum`, `productSum`, where `x` ranges
over the ground-truth values and `y` over the candidate prediction counts. -/
structure Sums where
  xSum : ℚ
  xSquaredSum : ℚ
  ySum : ℚ
  ySquaredSum : ℚ
  productSum : ℚ
  deriving Repr, DecidableEq

/-- One iteration of the accumulation loop (`i`-th time slot): `x` is the
ground truth at slot `i`, `y` the prediction at slot `i`. -/
def sumsStep (gt pred : ℕ → ℕ) (s : Sums) (i : ℕ) : Sums :=
  let x : ℚ := gt i
  let y : ℚ := pred i
  { xSum := s.xSum + x
    xSquaredSum := s.xSquaredSum + x ^ 2
    ySum := s.ySum + y
    ySquaredSum := s.ySquaredSum + y ^ 2
    productSum := s.productSum + x * y }

/-- The sums accumulated over all `n` time slots (the `for` loop of
`calculateLabelWisePrediction`). -/
def sumsOf (n : ℕ) (gt pred : ℕ → ℕ) : Sums :=
  (List.range n).foldl (sumsStep gt pred) ⟨0, 0, 0, 0, 0⟩

/-- The three derived quantities of `calculateLabelWisePrediction`:
`num` is the `numerator`, `varX` the argument of `sqrt1` (`n·Σx² − (Σx)²`),
`varY` the argument of `sqrt2` (`n·Σy² − (Σy)²`).  The quality score of the
candidate is `-|num / (sqrt varX * sqrt varY)|`. -/
structure ScoreStats where
  num : ℚ
  varX : ℚ
  varY : ℚ
  deriving Repr, DecidableEq

/-- The sufficient statistics of the quality score, computed exactly as in
`calculateLabelWisePrediction` (`n` = number of time slots, `pred` = selected
covered/uncovered prediction vector, `gt` = ground-truth counts). -/
def calculateLabelWisePrediction (n : ℕ) (pred gt : ℕ → ℕ) : ScoreStats :=
  let s := sumsOf n gt pred
  { num := n * s.productSum - s.xSum * s.ySum
    varX := n * s.xSquaredSum - s.xSum ^ 2
    varY := n * s.ySquaredSum - s.ySum ^ 2 }

/-- The `float64` score `-std::abs(numerator / denominator)` is finite iff the
denominator `sqrt(varX) * sqrt(varY)` is a positive real: `sqrt` of a negative
argument is NaN and a zero denominator gives `0/0 = NaN` or `±inf` (for the
integer-count inputs of this program `varX, varY ≥ 0` by Cauchy–Schwarz, so
non-finiteness is exactly zero variance). -/
def ScoreStats.isFinite (s : ScoreStats) : Bool :=
  decide (0 < s.varX) && decide (0 < s.varY)

/-- The overall quality score as a real number, exactly as computed by
`calculateLabelWisePrediction`: `-std::abs(numerator / (sqrt1 * sqrt2))`. -/
noncomputable def overallQualityScore (n : ℕ) (pred gt : ℕ → ℕ) : ℝ :=
  let st := calculateLabelWisePrediction n pred gt;
  -|(st.num : ℝ) / (Real.sqrt (st.varX : ℝ) * Real.sqrt (st.varY : ℝ))|

/-- The Pearson correlation of the ground truth `x` and the prediction
vector `y` over `n` time slots, written exactly as the specification states
it: numerator `n·Σxy − Σx·Σy`, denominator
`sqrt(n·Σx² − (Σx)²) · sqrt(n·Σy² − (Σy)²)`.  This definition follows the
spec's words; the claim compares it against `overallQualityScore`, which is
translated from the source. -/
noncomputable def pearsonSpec (n : ℕ) (pred gt : ℕ → ℕ) : ℝ :=
  ((n : ℝ) * ∑ i ∈ Finset.range n, (gt i : ℝ) * (pred i : ℝ) -
      (∑ i ∈ Finset.range n, (gt i : ℝ)) * ∑ i ∈ Finset.range n, (pred i : ℝ)) /
    (Real.sqrt ((n : ℝ) * ∑ i ∈ Finset.range n, (gt i : ℝ) ^ 2 -
        (∑ i ∈ Finset.range n, (gt i : ℝ)) ^ 2) *
      Real.sqrt ((n : ℝ) * ∑ i ∈ Finset.range n, (pred i : ℝ) ^ 2 -
        (∑ i ∈ Finset.range n, (pred i : ℝ)) ^ 2))

/-! ## Exact representation of finite quality-score values

Every finite quality score produced by the evaluation has the form
`-(p / sqrt d)` with `p = |num| ≥ 0` and `d = varX · varY > 0`.  The driver's
initial `currentQuality = 0` is `-(0 / sqrt 1)`.  `QVal` carries the pair
`(p, d)`; the order on the represented reals is decided exactly by comparing
`p² · d'` against `p'² · d` (cross-multiplied squares), which coincides with
the `float64` comparison of the represented values. -/

/-- Exact representation of a (finite) quality-score value `-(p / sqrt d)`. -/
structure QVal where
  p : ℚ
  d : ℚ
  deriving Repr, DecidableEq

/-- Well-formedness of the representation: `p ≥ 0` and `d > 0`.  Every score
accepted by the head refinement satisfies this. -/
def QVal.wf (q : QVal) : Prop := 0 ≤ q.p ∧ 0 < q.d

/-- The real number represented by a `QVal`. -/
noncomputable def QVal.toReal (q : QVal) : ℝ := -((q.p : ℝ) / Real.sqrt (q.d : ℝ))

/-- Decides `a < b` on the represented reals:
`-(a.p/√a.d) < -(b.p/√b.d) ↔ b.p² · a.d < a.p² · b.d` (for well-formed
values).  This is the comparison the C++ code performs on the `float64`
scores. -/
def QVal.blt (a b : QVal) : Bool := decide (b.p ^ 2 * a.d < a.p ^ 2 * b.d)

/-- The quality value represented by finite score statistics:
`p = |num|`, `d = varX · varY`, so that `-(p / sqrt d)` equals
`-|num / (sqrt varX · sqrt varY)|`. -/
def ScoreStats.qval (s : ScoreStats) : QVal := ⟨|s.num|, s.varX * s.varY⟩

/-- The zero quality (`float64 currentQuality = 0` in the driver). -/
def QVal.zero : QVal := ⟨0, 1⟩

/-- Modelled from the spec: `IHeadRefinement::findHead` (the head-refinement
implementation `head_refinement_full.cpp` is not among the sources).  Per
spec §4.3 it returns the freshly evaluated head iff it is strictly better
than `currentBest` (or `currentBest` is null), and per spec §4.2/§7 a
non-finite score (zero variance) is treated as a missing head and never
returned.  (`float64` comparisons against a NaN score are false, so the
strict-improvement test rejects non-finite candidates as well.) -/
def findHead (currentBest : Option QVal) (cand : ScoreStats) : Option QVal :=
  if cand.isFinite &&
      (match currentBest with
        | none => true
        | some b => QVal.blt cand.qval b) then
    some cand.qval
  else none

/-! ## Label-wise statistics (C4 of the spec): `LabelWiseStatistics` -/

/-- The mutable state of `LabelWiseStatistics`: `coverageCountVector_`,
`predictionVector_` and `totalPredictionVector_`, modelled as total
functions on example indices / time-slot indices. -/
structure LWStats where
  cc : ℕ → ℕ
  pred : ℕ → ℕ
  totalPred : ℕ → ℕ

/-- The constructor `LabelWiseStatistics::LabelWiseStatistics`:
`coverageCountVector_` and `predictionVector_` are allocated with
`init = true` (calloc, all zeros), but `totalPredictionVector_` is allocated
with `DenseVector<uint32>(numTimeSlots)`, i.e. `init = false` — a plain
`malloc` whose contents are indeterminate.  The parameter `junk` models the
indeterminate initial contents of `totalPredictionVector_`. -/
def mkLabelWiseStatistics (junk : ℕ → ℕ) : LWStats :=
  { cc := fun _ => 0, pred := fun _ => 0, totalPred := junk }

/-- The operation `resetCoveredStatistics` (and the equivalent
`resetSampledStatistics`): copy `predictionVector_` into
`totalPredictionVector_`. -/
def resetCoveredStatistics (st : LWStats) : LWStats :=
  { st with totalPred := st.pred }

/-- The operation `updateCoveredStatistic(statisticIndex, weight, remove)`
(and the equivalent `addSampledStatistic` with `remove = false`): if
`coverageCount[i] == 0`, increment or decrement the `uint32` counter
`totalPrediction[timeSlot(i)]`.  The weight parameter is accepted but unused,
as in the source. -/
def updateCoveredStatistic (slot : ℕ → ℕ) (st : LWStats) (i : ℕ) (w : ℚ)
    (remove : Bool) : LWStats :=
  if st.cc i = 0 then
    let t := slot i
    { st with
        totalPred := Function.update st.totalPred t
          (if remove then u32sub1 (st.totalPred t) else u32add1 (st.totalPred t)) }
  else st

/-- The operation `increaseCoverageCount(statisticIndex)`:
`coverageCount[i] += 1` (a `uint32` increment). -/
def increaseCoverageCount (st : LWStats) (i : ℕ) : LWStats :=
  { st with cc := Function.update st.cc i (u32add1 (st.cc i)) }

/-- The inner loop of `updatePredictions`: the number of indices
`j ∈ [start, stop)` with `coverageCount[j] > 0`. -/
def countPos (cc : ℕ → ℕ) (start stop : ℕ) : ℕ :=
  ((List.range' start (stop - start)).filter fun j => decide (0 < cc j)).length

/-- The operation `updatePredictions`: for each time slot `t < T`, recompute
`prediction[t]` as the number of examples in the index range
`[indices[t], indices[t+1])` whose coverage count is positive (the counter is
a `uint32`, hence the reduction modulo `2^32`). -/
def updatePredictions (T : ℕ) (indices : ℕ → ℕ) (st : LWStats) : LWStats :=
  { st with
      pred := fun t =>
        if t < T then countPos st.cc (indices t) (indices (t + 1)) % U32
        else st.pred t }

/-- The member `ThresholdsSubset::applyPrediction` of `thresholds_exact.cpp`:
for every statistic `i < N` covered by the coverage mask, call
`increaseCoverageCount(i)`; then call `updatePredictions()`. -/
def applyPrediction (N T : ℕ) (indices : ℕ → ℕ) (isCovered : ℕ → Bool)
    (st : LWStats) : LWStats :=
  updatePredictions T indices
    ((List.range N).foldl
      (fun s i => if isCovered i then increaseCoverageCount s i else s) st)

/-- The set of example indices of time slot `t`, per the data model of the
spec: the `[indices[t], indices[t+1])` example-index range. -/
def slotMembers (indices : ℕ → ℕ) (t : ℕ) : List ℕ :=
  List.range' (indices t) (indices (t + 1) - indices t)

/-- The loop of the covered branch of `filterCurrentVector`
(`thresholds_exact.cpp`), restricted to its effect on the statistics:
`statistics.resetCoveredStatistics()` followed by
`statistics.updateCoveredStatistic(index, weight, false)` for every example
index retained by the new condition (the list `S`, in iteration order). -/
def filterCoveredStats (slot : ℕ → ℕ) (w : ℕ → ℚ) (S : List ℕ)
    (st : LWStats) : LWStats :=
  S.foldl (fun s i => updateCoveredStatistic slot s i (w i) false)
    (resetCoveredStatistics st)

/-- The loop of `createSubset` → `updateSampledStatisticsInternally`.
Modelled from the spec: `thresholds_common.hpp` is not among the sources;
per spec §4.5 `createSubset(weights)` "installs the sampled weights into the
live statistics (call addSampledStatistic for every i with w(i) ≠ 0)", and
`addSampledStatistic` ≡ `updateCoveredStatistic(·, ·, false)` in the source.
The reset performed first realises `resetSampledStatistics`. -/
def installSampledWeights (N : ℕ) (slot : ℕ → ℕ) (w : ℕ → ℚ)
    (st : LWStats) : LWStats :=
  (List.range N).foldl
    (fun s i => if w i ≠ 0 then updateCoveredStatistic slot s i (w i) false else s)
    (resetCoveredStatistics st)

/-! ## Statistics subset (C4a of the spec): `LabelWiseStatistics::StatisticsSubset` -/

/-- The state of a `StatisticsSubset`: `coveredPredictionVector_`,
`uncoveredPredictionVector_` and their accumulated variants (null until the
first `resetSubset`). -/
structure SubsetState where
  covered : ℕ → ℕ
  uncovered : ℕ → ℕ
  accCovered : Option (ℕ → ℕ)
  accUncovered : Option (ℕ → ℕ)

/-- The `StatisticsSubset` constructor: `coveredPredictionVector_` is a copy
of the statistics' `predictionVector_`, `uncoveredPredictionVector_` a copy
of `totalPredictionVector_`; the accumulated vectors are null. -/
def createStatisticsSubset (st : LWStats) : SubsetState :=
  { covered := st.pred, uncovered := st.totalPred
    accCovered := none, accUncovered := none }

/-- The operation `StatisticsSubset::addToMissing(statisticIndex, weight)`:
if `coverageCount[i] == 0`, decrement the `uint32` counter
`uncoveredPredictionVector_[timeSlot(i)]`.  Note that the weight is accepted
but never consulted. -/
def addToMissing (slot cc : ℕ → ℕ) (sub : SubsetState) (i : ℕ) (w : ℚ) :
    SubsetState :=
  if cc i = 0 then
    let t := slot i
    { sub with uncovered := Function.update sub.uncovered t (u32sub1 (sub.uncovered t)) }
  else sub

/-- The operation `StatisticsSubset::addToSubset(statisticIndex, weight)`:
if `coverageCount[i] == 0`, increment `covered[timeSlot(i)]` and decrement
`uncovered[timeSlot(i)]`; mirror both deltas into the accumulated vectors
when they exist. -/
def addToSubset (slot cc : ℕ → ℕ) (sub : SubsetState) (i : ℕ) (w : ℚ) :
    SubsetState :=
  if cc i = 0 then
    let t := slot i
    let sub1 :=
      { sub with
          covered := Function.update sub.covered t (u32add1 (sub.covered t))
          uncovered := Function.update sub.uncovered t (u32sub1 (sub.uncovered t)) }
    match sub1.accCovered, sub1.accUncovered with
    | some ac, some au =>
        { sub1 with
            accCovered := some (Function.update ac t (u32add1 (ac t)))
            accUncovered := some (Function.update au t (u32sub1 (au t))) }
    | _, _ => sub1
  else sub

/-- The operation `StatisticsSubset::resetSubset()`: on the first call,
snapshot `(covered, uncovered)` into the accumulated vectors; then reload
`(covered, uncovered)` from the parent statistics'
`(prediction, totalPrediction)`. -/
def resetSubset (st : LWStats) (sub : SubsetState) : SubsetState :=
  let sub1 :=
    if sub.accCovered.isNone then
      { sub with accCovered := some sub.covered, accUncovered := some sub.uncovered }
    else sub
  { sub1 with covered := st.pred, uncovered := st.totalPred }

/-- The operation `StatisticsSubset::calculateLabelWisePrediction(uncovered,
accumulated)`: select one of the four per-slot vectors and hand it to the
rule evaluation.  Dereferencing a null accumulated vector is undefined
behaviour in the source and unreachable on the evaluated paths; the model
falls back to the non-accumulated vector in that case. -/
def subsetScore (T : ℕ) (gt : ℕ → ℕ) (sub : SubsetState)
    (uncov acc : Bool) : ScoreStats :=
  let v : ℕ → ℕ :=
    if uncov then (if acc then sub.accUncovered.getD sub.uncovered else sub.uncovered)
    else (if acc then sub.accCovered.getD sub.covered else sub.covered)
  calculateLabelWisePrediction T v gt

/-! ## Split adjustment (`adjustSplit`, thresholds_exact.cpp) -/

/-- The predicate `bool adjust = ascending ? featureValue <= threshold :
featureValue > threshold` of the `adjustSplit` loop. -/
def adjustCheck (values : ℤ → ℚ) (threshold : ℚ) (ascending : Bool)
    (r : ℤ) : Bool :=
  if ascending then decide (values r ≤ threshold) else decide (threshold < values r)

/-- The loop of `adjustSplit`: starting at position `r`, walk `fuel` steps in
direction `dir` (steps of `+1` when ascending, `-1` when descending); as long
as the feature value at the current position satisfies `adjustCheck`, record
the position as the adjusted one, and stop at the first position that
fails. -/
def adjustSplitWalk (values : ℤ → ℚ) (threshold : ℚ) (ascending : Bool)
    (dir : ℤ) : ℕ → ℤ → ℤ → ℤ
  | 0, _, acc => acc
  | fuel + 1, r, acc =>
      if adjustCheck values threshold ascending r then
        adjustSplitWalk values threshold ascending dir fuel (r + dir) r
      else acc

/-- The function `adjustSplit(featureVector, conditionEnd, conditionPrevious,
threshold)`: traverse the examples from `conditionEnd + direction` toward
`conditionPrevious` (exclusive) and return the last position whose feature
value still lies on `conditionEnd`'s side of the threshold.  The feature
vector's value column is modelled as a total function on `intp` positions. -/
def adjustSplit (values : ℤ → ℚ) (conditionEnd conditionPrevious : ℤ)
    (threshold : ℚ) : ℤ :=
  let ascending := conditionEnd < conditionPrevious
  let dir : ℤ := if ascending then 1 else -1
  let start := conditionEnd + dir
  let numSteps := (start - conditionPrevious).natAbs
  adjustSplitWalk values threshold ascending dir numSteps start conditionEnd

/-! ## Exact rule refinement (C8 of the spec): `ExactRuleRefinement::findRefinement` -/

/-- The comparators of a condition. -/
inductive Comparator where
  | LEQ
  | GR
  | EQ
  | NEQ
  deriving Repr, DecidableEq

/-- The compile-time flag `USE_NEQ` of `rule_refinement_exact.cpp`. -/
def USE_NEQ : Bool := false

/-- The compile-time flag `USE_LEQ` of `rule_refinement_exact.cpp`. -/
def USE_LEQ : Bool := true

/-- Modelled from the spec: `arithmeticMean` (`common/math/math.hpp` is not
among the sources); the spec says thresholds are the arithmetic mean of the
two adjacent feature values. -/
def arithmeticMean (a b : ℚ) : ℚ := (a + b) / 2

/-- One element of a feature vector: a (feature value, example index) pair. -/
structure FVEntry where
  value : ℚ
  index : ℕ
  deriving Repr, DecidableEq

/-- The fields of a `Refinement` (condition bookkeeping plus the evaluated
head).  `startPos`, `endPos`, `prevPos` model the `start`, `end`, `previous`
positions into the feature vector (`intp`, may be `-1`). -/
structure RefinementM where
  featureIndex : ℕ
  startPos : ℤ
  endPos : ℤ
  prevPos : ℤ
  numCovered : ℕ
  covered : Bool
  comparator : Comparator
  threshold : ℚ
  head : Option QVal
  deriving Repr, DecidableEq

/-- The read-only inputs of one `findRefinement` call: the number of time
slots `T` and ground truth `gt`, the per-example time slots `slot`, the live
statistics (whose `cc`, `pred`, `totalPred` the statistics subset reads), the
weight vector `w`, the feature vector (`nel` elements accessed through the
iterator `ith`, plus the `missing` index list), the member `numExamples_`
(`numExamplesTotal`, the number of covered examples passed by the thresholds
subset), `minCoverage` and the nominal flag. -/
structure RefineCtx where
  T : ℕ
  gt : ℕ → ℕ
  slot : ℕ → ℕ
  stats : LWStats
  w : ℕ → ℚ
  nel : ℕ
  ith : ℕ → FVEntry
  missing : List ℕ
  numExamplesTotal : ℕ
  minCoverage : ℕ
  nominal : Bool
  featureIndex : ℕ

/-- The mutable state of the sweep: the statistics subset, the best head seen
so far (`bestHead`), the last head computed and retained by the
head-refinement object (`polled`, yielded by `pollHead()` at the end), the
refinement record, the loop variables of the source, and — as pure
instrumentation — `log`, the list of the `numCovered` values of every
`findHead` invocation, in evaluation order. -/
structure SweepState where
  sub : SubsetState
  bestHead : Option QVal
  polled : Option QVal
  ref : RefinementM
  log : List ℕ
  numExamples : ℕ
  accumulated : ℕ
  firstR : ℤ
  lastNegativeR : ℤ
  previousThreshold : ℚ
  previousR : ℤ

/-- One candidate evaluation: invoke `findHead` on the selected subset vector;
when it returns a (strictly better, finite) head, record it as the new best,
remember it for `pollHead` and update the refinement fields.  The `log`
records the `numCovered` of the candidate. -/
def evalCandidate (ctx : RefineCtx) (s : SweepState) (uncov acc : Bool)
    (nc : ℕ) (upd : RefinementM → RefinementM) : SweepState :=
  let s1 := { s with log := s.log ++ [nc] }
  match findHead s1.bestHead (subsetScore ctx.T ctx.gt s1.sub uncov acc) with
  | some h => { s1 with bestHead := some h, polled := some h, ref := upd s1.ref }
  | none => s1

/-- The first loop of `findRefinement`: traverse examples with feature value
`< 0` in ascending order until the first example with weight `> 0` is found
(adding it to the subset), or a non-negative value / the end of the vector is
reached.  Returns the state and the final loop index `r`. -/
def phaseAFirst (ctx : RefineCtx) : ℕ → ℕ → SweepState → SweepState × ℕ
  | 0, r, s => (s, r)
  | fuel + 1, r, s =>
      let e := ctx.ith r
      if 0 ≤ e.value then (s, r)
      else
        let s1 := { s with lastNegativeR := (r : ℤ) }
        if 0 < ctx.w e.index then
          ({ s1 with
              sub := addToSubset ctx.slot ctx.stats.cc s1.sub e.index (ctx.w e.index)
              numExamples := s1.numExamples + 1
              previousThreshold := e.value
              previousR := (r : ℤ) }, r)
        else phaseAFirst ctx fuel (r + 1) s1

/-- The main negative-value loop of `findRefinement` (phase A): ascend over
the remaining examples with value `< 0`; at each positive-weight example
whose value differs from the previous positive-weight example's value,
evaluate the `LEQ`/`EQ` condition on the covered subset and the `GR`/`NEQ`
condition on the uncovered complement (both gated by `minCoverage` and the
compile-time flags), reset the subset for nominal features, and then add the
example to the subset. -/
def phaseAMain (ctx : RefineCtx) : ℕ → ℕ → SweepState → SweepState
  | 0, _, s => s
  | fuel + 1, r, s =>
      let e := ctx.ith r
      if 0 ≤ e.value then s
      else
        let s1 := { s with lastNegativeR := (r : ℤ) }
        if 0 < ctx.w e.index then
          let s2 :=
            if s1.previousThreshold ≠ e.value then
              let ncCov := s1.numExamples
              let s2a :=
                if ctx.minCoverage ≤ ncCov ∧ (ctx.nominal ∨ USE_LEQ) then
                  evalCandidate ctx s1 false false ncCov (fun rf =>
                    { rf with
                        startPos := s1.firstR, endPos := (r : ℤ),
                        prevPos := s1.previousR, numCovered := ncCov, covered := true,
                        comparator := if ctx.nominal then .EQ else .LEQ,
                        threshold := if ctx.nominal then s1.previousThreshold
                          else arithmeticMean s1.previousThreshold e.value })
                else s1
              let ncUnc := u32sub ctx.numExamplesTotal s1.numExamples
              let s2b :=
                if ctx.minCoverage ≤ ncUnc ∧ (¬ctx.nominal ∨ USE_NEQ) then
                  evalCandidate ctx s2a true false ncUnc (fun rf =>
                    { rf with
                        startPos := s1.firstR, endPos := (r : ℤ),
                        prevPos := s1.previousR, numCovered := ncUnc, covered := false,
                        comparator := if ctx.nominal then .NEQ else .GR,
                        threshold := if ctx.nominal then s1.previousThreshold
                          else arithmeticMean s1.previousThreshold e.value })
                else s2a
              if ctx.nominal then
                { s2b with
                    sub := resetSubset ctx.stats s2b.sub, numExamples := 0,
                    firstR := (r : ℤ) }
              else s2b
            else s1
          let s3 :=
            { s2 with
                previousThreshold := e.value
                previousR := (r : ℤ)
                sub := addToSubset ctx.slot ctx.stats.cc s2.sub e.index (ctx.w e.index)
                numExamples := s2.numExamples + 1
                accumulated := s2.accumulated + 1 }
          phaseAMain ctx fuel (r + 1) s3
        else phaseAMain ctx fuel (r + 1) s1

/-- The trailing nominal block of phase A: if the feature is nominal and the
iterated negative examples do not all share one value (or some examples
remain), evaluate `f == previousThreshold` with span
`[firstR, lastNegativeR + 1)` and — gated by `USE_NEQ` — its complement. -/
def phaseATrailing (ctx : RefineCtx) (s : SweepState) : SweepState :=
  if ctx.nominal ∧ 0 < s.numExamples ∧
      (s.numExamples < s.accumulated ∨ s.accumulated < ctx.numExamplesTotal) then
    let ncCov := s.numExamples
    let s1 :=
      if ctx.minCoverage ≤ ncCov then
        evalCandidate ctx s false false ncCov (fun rf =>
          { rf with
              startPos := s.firstR, endPos := s.lastNegativeR + 1,
              prevPos := s.previousR, numCovered := ncCov, covered := true,
              comparator := .EQ, threshold := s.previousThreshold })
      else s
    let ncUnc := u32sub ctx.numExamplesTotal s.numExamples
    if ctx.minCoverage ≤ ncUnc ∧ USE_NEQ then
      evalCandidate ctx s1 true false ncUnc (fun rf =>
        { rf with
            startPos := s.firstR, endPos := s.lastNegativeR + 1,
            prevPos := s.previousR, numCovered := ncUnc, covered := false,
            comparator := .NEQ, threshold := s.previousThreshold })
    else s1
  else s

/-- Phase A of `findRefinement`: the negative-value prefix, including the
trailing nominal block and the final `resetSubset` (both only executed when
at least one negative positive-weight example was processed). -/
def phaseA (ctx : RefineCtx) (s : SweepState) : SweepState :=
  let p := phaseAFirst ctx ctx.nel 0 s
  let s2 : SweepState := { p.1 with accumulated := p.1.numExamples }
  if 0 < s2.numExamples then
    let s3 := phaseAMain ctx (ctx.nel - (p.2 + 1)) (p.2 + 1) s2
    let s4 := phaseATrailing ctx s3
    { s4 with sub := resetSubset ctx.stats s4.sub }
  else s2

/-- The first loop of phase B: descend from the last element of the vector
toward `lastNegativeR` (exclusive) until the first example with weight `> 0`
is found, adding it to the subset.  Returns the state and the loop index. -/
def phaseBFirst (ctx : RefineCtx) : ℕ → ℕ → SweepState → SweepState × ℕ
  | 0, r, s => (s, r)
  | fuel + 1, r, s =>
      let e := ctx.ith r
      if 0 < ctx.w e.index then
        ({ s with
            sub := addToSubset ctx.slot ctx.stats.cc s.sub e.index (ctx.w e.index)
            numExamples := s.numExamples + 1
            previousThreshold := e.value
            previousR := (r : ℤ) }, r)
      else phaseBFirst ctx fuel (r - 1) s

/-- The main non-negative loop of `findRefinement` (phase B), descending:
at each positive-weight example with a new value, evaluate the `GR`/`EQ`
condition on the covered subset and the `LEQ`/`NEQ` complement (the latter
gated by `USE_LEQ` for numerical and `USE_NEQ` for nominal features). -/
def phaseBMain (ctx : RefineCtx) : ℕ → ℕ → SweepState → SweepState
  | 0, _, s => s
  | fuel + 1, r, s =>
      let e := ctx.ith r
      if 0 < ctx.w e.index then
        let s2 :=
          if s.previousThreshold ≠ e.value then
            let ncCov := s.numExamples
            let s2a :=
              if ctx.minCoverage ≤ ncCov then
                evalCandidate ctx s false false ncCov (fun rf =>
                  { rf with
                      startPos := s.firstR, endPos := (r : ℤ),
                      prevPos := s.previousR, numCovered := ncCov, covered := true,
                      comparator := if ctx.nominal then .EQ else .GR,
                      threshold := if ctx.nominal then s.previousThreshold
                        else arithmeticMean e.value s.previousThreshold })
              else s
            let ncUnc := u32sub ctx.numExamplesTotal s.numExamples
            let s2b :=
              if ctx.minCoverage ≤ ncUnc ∧ (if ctx.nominal then USE_NEQ else USE_LEQ) then
                evalCandidate ctx s2a true false ncUnc (fun rf =>
                  { rf with
                      startPos := s.firstR, endPos := (r : ℤ),
                      prevPos := s.previousR, numCovered := ncUnc, covered := false,
                      comparator := if ctx.nominal then .NEQ else .LEQ,
                      threshold := if ctx.nominal then s.previousThreshold
                        else arithmeticMean e.value s.previousThreshold })
              else s2a
            if ctx.nominal then
              { s2b with
                  sub := resetSubset ctx.stats s2b.sub, numExamples := 0,
                  firstR := (r : ℤ) }
            else s2b
          else s
        let s3 :=
          { s2 with
              previousThreshold := e.value
              previousR := (r : ℤ)
              sub := addToSubset ctx.slot ctx.stats.cc s2.sub e.index (ctx.w e.index)
              numExamples := s2.numExamples + 1
              accumulated := s2.accumulated + 1 }
        phaseBMain ctx fuel (r - 1) s3
      else phaseBMain ctx fuel (r - 1) s

/-- The trailing nominal block of phase B: evaluate `f == previousThreshold`
with span `[firstR, lastNegativeR)` — note the `lastNegativeR` without `+ 1`,
preserved verbatim from the source — and, gated by `USE_NEQ`, its
complement. -/
def phaseBTrailing (ctx : RefineCtx) (s : SweepState) : SweepState :=
  if ctx.nominal ∧ 0 < s.numExamples ∧ s.numExamples < s.accumulated then
    let ncCov := s.numExamples
    let s1 :=
      if ctx.minCoverage ≤ ncCov then
        evalCandidate ctx s false false ncCov (fun rf =>
          { rf with
              startPos := s.firstR, endPos := s.lastNegativeR,
              prevPos := s.previousR, numCovered := ncCov, covered := true,
              comparator := .EQ, threshold := s.previousThreshold })
      else s
    let ncUnc := u32sub ctx.numExamplesTotal s.numExamples
    if ctx.minCoverage ≤ ncUnc ∧ USE_NEQ then
      evalCandidate ctx s1 true false ncUnc (fun rf =>
        { rf with
            startPos := s.firstR, endPos := s.lastNegativeR,
            prevPos := s.previousR, numCovered := ncUnc, covered := false,
            comparator := .NEQ, threshold := s.previousThreshold })
    else s1
  else s

/-- The covered-side candidate of phase C (`f > previousThreshold / 2`,
nominal `f != 0` gated by `USE_NEQ`), evaluated on the accumulated subset for
nominal features. -/
def phaseCCovered (ctx : RefineCtx) (ncCov : ℕ) (s0 : SweepState) : SweepState :=
  if ctx.minCoverage ≤ ncCov ∧ (¬ctx.nominal ∨ USE_NEQ) then
    evalCandidate ctx s0 false ctx.nominal ncCov (fun rf =>
      if ctx.nominal then
        { rf with
            startPos := s0.firstR, covered := true, numCovered := ncCov,
            endPos := -1, prevPos := -1, comparator := .NEQ, threshold := 0 }
      else
        { rf with
            startPos := s0.firstR, covered := true, numCovered := ncCov,
            endPos := s0.lastNegativeR, prevPos := s0.previousR,
            comparator := .GR, threshold := s0.previousThreshold * (1 / 2) })
  else s0

/-- The complement candidate of phase C (`f <= previousThreshold / 2`,
nominal `f == 0`). -/
def phaseCUncovered (ctx : RefineCtx) (ncUnc : ℕ) (s1 : SweepState) : SweepState :=
  if ctx.minCoverage ≤ ncUnc ∧ (ctx.nominal ∨ USE_LEQ) then
    evalCandidate ctx s1 true ctx.nominal ncUnc (fun rf =>
      if ctx.nominal then
        { rf with
            startPos := s1.firstR, covered := false, numCovered := ncUnc,
            endPos := -1, prevPos := -1, comparator := .EQ, threshold := 0 }
      else
        { rf with
            startPos := s1.firstR, covered := false, numCovered := ncUnc,
            endPos := s1.lastNegativeR, prevPos := s1.previousR,
            comparator := .LEQ, threshold := s1.previousThreshold * (1 / 2) })
  else s1

/-- Phase C of `findRefinement` (the sparse-zero bridge): if some examples
carry the implicit zero value, reset the subset for nominal features
(restarting `firstR` at the last element) and evaluate the covered and
complement sparse conditions.  `accNeg` is
`accumulatedNumExamplesNegative`. -/
def phaseC (ctx : RefineCtx) (accNeg : ℕ) (s : SweepState) : SweepState :=
  let total := accNeg + s.accumulated
  if 0 < total ∧ total < ctx.numExamplesTotal then
    let s0 :=
      if ctx.nominal then
        { s with sub := resetSubset ctx.stats s.sub, firstR := (ctx.nel : ℤ) - 1 }
      else s
    let s1 := phaseCCovered ctx (if ctx.nominal then total else s0.accumulated) s0
    phaseCUncovered ctx
      (u32sub ctx.numExamplesTotal (if ctx.nominal then total else s1.accumulated)) s1
  else s

/-- Phase D of `findRefinement` (the numerical bridge between negative and
non-negative values): evaluate `LEQ` and `GR` at the mean of the last
negative and first non-negative positive-weight values, or at
`lastNegative / 2` when a sparse zero sits between them.  `accNeg`,
`prevThrNeg`, `prevRNeg` are `accumulatedNumExamplesNegative`,
`previousThresholdNegative` and `previousRNegative`. -/
def phaseD (ctx : RefineCtx) (accNeg : ℕ) (prevThrNeg : ℚ) (prevRNeg : ℤ)
    (s : SweepState) : SweepState :=
  if ¬ctx.nominal ∧ 0 < accNeg ∧ accNeg < ctx.numExamplesTotal then
    let total := accNeg + s.accumulated
    let thr :=
      if total < ctx.numExamplesTotal then prevThrNeg * (1 / 2)
      else arithmeticMean prevThrNeg s.previousThreshold
    let ncCov := accNeg
    let s1 :=
      if ctx.minCoverage ≤ ncCov ∧ USE_LEQ then
        evalCandidate ctx s false true ncCov (fun rf =>
          { rf with
              startPos := 0, endPos := s.lastNegativeR + 1, prevPos := prevRNeg,
              numCovered := ncCov, covered := true, comparator := .LEQ, threshold := thr })
      else s
    let ncUnc := u32sub ctx.numExamplesTotal accNeg
    if ctx.minCoverage ≤ ncUnc then
      evalCandidate ctx s1 true true ncUnc (fun rf =>
        { rf with
            startPos := 0, endPos := s.lastNegativeR + 1, prevPos := prevRNeg,
            numCovered := ncUnc, covered := false, comparator := .GR, threshold := thr })
    else s1
  else s

/-- The setup of `findRefinement`: create an empty statistics subset, feed
it every missing example (`addToMissing(i, w(i))`), and initialise the loop
variables (`numExamples = 0`, `firstR = 0`, `lastNegativeR = -1`,
`previousThreshold = 0`, `previousR = 0`). -/
def initialSweepState (ctx : RefineCtx) (currentHead : Option QVal) : SweepState :=
  { sub := ctx.missing.foldl
      (fun sb i => addToMissing ctx.slot ctx.stats.cc sb i (ctx.w i))
      (createStatisticsSubset ctx.stats)
    bestHead := currentHead, polled := none
    ref :=
      { featureIndex := ctx.featureIndex, startPos := 0, endPos := 0, prevPos := 0,
        numCovered := 0, covered := false, comparator := .LEQ, threshold := 0,
        head := none }
    log := [], numExamples := 0, accumulated := 0, firstR := 0, lastNegativeR := -1,
    previousThreshold := 0, previousR := 0 }

/-- Phase B of `findRefinement`: reset `numExamples` and `firstR`
(`firstR = ((intp) numElements) - 1`), run the descending pre-loop, set
`accumulatedNumExamples = numExamples` and, if an example was found, run the
main descending loop down to `lastNegativeR` (exclusive). -/
def phaseB (ctx : RefineCtx) (s : SweepState) : SweepState :=
  let sB0 := { s with numExamples := 0, firstR := (ctx.nel : ℤ) - 1 }
  let pB := phaseBFirst ctx (((ctx.nel : ℤ) - 1 - s.lastNegativeR).toNat)
    (ctx.nel - 1) sB0
  let sB2 : SweepState := { pB.1 with accumulated := pB.1.numExamples }
  if 0 < sB2.numExamples then
    phaseBMain ctx (((pB.2 : ℤ) - 1 - sB2.lastNegativeR).toNat) (pB.2 - 1) sB2
  else sB2

/-- The function `ExactRuleRefinement::findRefinement(currentHead,
minCoverage)`: create an empty statistics subset, feed it the missing
examples, run the four sweep phases and store the last computed head
(`pollHead()`) in the refinement. -/
def findRefinement (ctx : RefineCtx) (currentHead : Option QVal) : SweepState :=
  let sA := phaseA ctx (initialSweepState ctx currentHead)
  let sD := phaseD ctx sA.accumulated sA.previousThreshold sA.previousR
    (phaseC ctx sA.accumulated (phaseBTrailing ctx (phaseB ctx sA)))
  { sD with ref := { sD.ref with head := sD.polled } }

/-! ## Top-down rule induction (C9 of the spec): `TopDownRuleInduction::induceRule` -/

/-- The computation `uint32 minCoverage = (uint32)(minSupport_ * numExamples)`
at the top of `induceRule`: C-style truncation of the product, which for the
non-negative `minSupport ∈ [0, 1)` is its floor. -/
def minCoverageOf (minSupport : ℚ) (numExamples : ℕ) : ℕ :=
  (⌊minSupport * numExamples⌋).toNat

/-- Modelled from the spec: `Refinement::isBetterThan` (the model headers are
not among the sources).  Per spec §4.6 it compares overall quality scores
ascending, an initially empty refinement — or one whose search found no
head — having score `+∞`; a candidate is better iff its score is strictly
smaller. -/
def isBetterThan (cand best : Option QVal) : Bool :=
  match cand, best with
  | none, _ => false
  | some _, none => true
  | some c, some b => QVal.blt c b

/-- One step of the sequential best-refinement reduction of `induceRule`
(`if (refinementPtr->isBetterThan(*bestRefinementPtr)) { bestRefinementPtr =
std::move(refinementPtr); }`), tracking the iteration position `j` of the
current best. -/
def pickBestStep (j : ℕ) (best : Option (ℕ × QVal)) (cand : Option QVal) :
    Option (ℕ × QVal) :=
  if isBetterThan cand (best.map Prod.snd) then cand.map fun q => (j, q) else best

/-- The fold realising the sequential reduction, starting at position `j`. -/
def pickBestGo (j : ℕ) (best : Option (ℕ × QVal)) :
    List (Option QVal) → Option (ℕ × QVal)
  | [] => best
  | c :: rest => pickBestGo (j + 1) (pickBestStep j best c) rest

/-- The sequential best-refinement reduction performed by `induceRule` after
the parallel region: poll each feature's refinement in feature-index
iteration order and keep it iff strictly better than the best so far (the
initial best is the empty refinement, of score `+∞`).  Returns the iteration
position and quality of the winner. -/
def pickBest (cands : List (Option QVal)) : Option (ℕ × QVal) :=
  pickBestGo 0 none cands

/-- The contents of the model builder, as far as the claims are concerned:
the committed rules, each a condition list plus the head's quality. -/
structure ModelBuilderState where
  rules : List (List RefinementM × QVal)

/-- The commit decision at the end of `induceRule` (part_004, lines 93–110):
with no best head, return `(false, currentQuality)`; with a best head whose
quality score is strictly lower than `currentQuality`, apply the prediction
to the statistics (`applyPrediction`: bump the coverage counts of all
mask-covered examples and recompute the committed predictions), add the rule
to the model builder and return `(true, score)`; otherwise return
`(false, currentQuality)` leaving the builder and the committed statistics
untouched. -/
def induceRuleCommit (N T : ℕ) (indices : ℕ → ℕ) (isCovered : ℕ → Bool)
    (bestHead : Option QVal) (conditions : List RefinementM)
    (currentQuality : QVal) (mb : ModelBuilderState) (st : LWStats) :
    (Bool × QVal) × ModelBuilderState × LWStats :=
  match bestHead with
  | none => ((false, currentQuality), mb, st)
  | some h =>
      if QVal.blt h currentQuality then
        ((true, h), ⟨mb.rules ++ [(conditions, h)]⟩,
          applyPrediction N T indices isCovered st)
      else ((false, currentQuality), mb, st)

/-! ## Sequential model induction driver (C10 of the spec) -/

/-- The result of `testStoppingCriteria`. -/
inductive StopAction where
  | cont
  | storeStop (numRules : ℕ)
  | forceStop (numRules : ℕ)
  deriving Repr, DecidableEq

/-- The per-iteration inputs of the driver loop: the aggregated stopping
criterion result, and the best head that the refinement search inside
`induceRule` produced for this iteration (null when no useful condition was
found). -/
structure IterInput where
  stop : StopAction
  bestHead : Option QVal

/-- The loop of `SequentialRuleModelInduction::induceRules` (lines 81–104):
starting from `currentQuality = 0`, test the stopping criteria (`FORCE_STOP`
breaks, `STORE_STOP` latches `numUsedRules` once), run `induceRule` —
whose commit decision succeeds iff a best head exists with score strictly
below `currentQuality`, in which case the score becomes the new
`currentQuality` — and stop at the first unsuccessful rule.  Returns the
quality scores of the committed rules in commit order, and `numUsedRules`. -/
def induceRulesLoop : List IterInput → QVal → ℕ → ℕ → List QVal × ℕ
  | [], _, _, numUsed => ([], numUsed)
  | it :: rest, cq, numRules, numUsed =>
      match it.stop with
      | .forceStop _ => ([], numUsed)
      | action =>
          let numUsed1 :=
            match action with
            | .storeStop k => if numUsed = 0 then k else numUsed
            | _ => numUsed
          match it.bestHead with
          | some h =>
              if QVal.blt h cq then
                let res := induceRulesLoop rest h (numRules + 1) numUsed1
                (h :: res.1, res.2)
              else ([], numUsed1)
          | none => ([], numUsed1)

/-! ## Concrete sample instances used by the witnesses -/

/-- A two-example, two-slot statistics state at the start of training, after
the sampled weights (all `1`) have been installed: `coverageCount = 0`,
`prediction = 0`, `totalPrediction = 1` for each of the two slots. -/
def sampleStats : LWStats :=
  { cc := fun _ => 0, pred := fun _ => 0, totalPred := fun t => if t < 2 then 1 else 0 }

/-- A concrete refinement context: two examples in two time slots
(`slot i = i`), ground truth `[0, 1]`, a numerical feature with sorted
vector `[(1, 0), (2, 1)]`, no missing values, unit weights. -/
def sampleCtx : RefineCtx :=
  { T := 2, gt := fun t => if t = 0 then 0 else 1, slot := fun i => i,
    stats := sampleStats, w := fun _ => 1, nel := 2,
    ith := fun r => if r = 0 then ⟨1, 0⟩ else ⟨2, 1⟩, missing := [],
    numExamplesTotal := 2, minCoverage := 0, nominal := false, featureIndex := 5 }

/-- The sample context with the minimum coverage `⌊(1/2) · 2⌋ = 1` that
`induceRule` computes for `minSupport = 1/2` and two examples. -/
def sampleCtxHalf : RefineCtx :=
  { sampleCtx with minCoverage := minCoverageOf (1 / 2) 2 }

/-- The sweep invariant used for verification: every logged candidate covers
at least `mc` examples, and the head retained for `pollHead` (if any) is a
well-formed (finite) quality value. -/
def SweepInv (mc : ℕ) (s : SweepState) : Prop :=
  (∀ nc ∈ s.log, mc ≤ nc) ∧ ∀ h, s.polled = some h → h.wf

/-- The loop of `calculateLabelWisePrediction` accumulates exactly the closed
form sums over `Finset.range n`. -/
theorem sumsOf_eq (n : ℕ) (gt pred : ℕ → ℕ) :
    sumsOf n gt pred =
      ⟨∑ i ∈ Finset.range n, (gt i : ℚ),
        ∑ i ∈ Finset.range n, (gt i : ℚ) ^ 2,
        ∑ i ∈ Finset.range n, (pred i : ℚ),
        ∑ i ∈ Finset.range n, (pred i : ℚ) ^ 2,
        ∑ i ∈ Finset.range n, (gt i : ℚ) * (pred i : ℚ)⟩ := by
  induction n with
  | zero => simp [sumsOf]
  | succ n ih =>
      simp only [sumsOf, List.range_succ, List.foldl_append, List.foldl_cons,
        List.foldl_nil] at *
      rw [ih]
      simp [sumsStep, Finset.sum_range_succ]

/-- C2: the quality score returned by the rule evaluation equals the negated
absolute Pearson correlation of ground truth and prediction, with the
numerator and denominator stated by the specification. -/
theorem overallQualityScore_eq_neg_abs_pearson (n : ℕ) (pred gt : ℕ → ℕ) :
    overallQualityScore n pred gt = -|pearsonSpec n pred gt| := by
  simp only [overallQualityScore, pearsonSpec, calculateLabelWisePrediction, sumsOf_eq]
  push_cast
  ring_nf

/-- The decidable comparison `QVal.blt` agrees with the order of the
represented real score values, for well-formed representations. -/
theorem QVal.blt_iff_toReal {a b : QVal} (ha : a.wf) (hb : b.wf) :
    QVal.blt a b = true ↔ a.toReal < b.toReal := by
  obtain ⟨hap, had⟩ := ha
  obtain ⟨hbp, hbd⟩ := hb
  have had' : (0 : ℝ) < Real.sqrt (a.d : ℚ) :=
    Real.sqrt_pos.mpr (by exact_mod_cast had)
  have hbd' : (0 : ℝ) < Real.sqrt (b.d : ℚ) :=
    Real.sqrt_pos.mpr (by exact_mod_cast hbd)
  rw [QVal.blt, decide_eq_true_iff, QVal.toReal, QVal.toReal, neg_lt_neg_iff,
    div_lt_div_iff₀ hbd' had']
  constructor
  · intro h
    have h2 : ((b.p : ℝ) * Real.sqrt a.d) ^ 2 < ((a.p : ℝ) * Real.sqrt b.d) ^ 2 := by
      rw [mul_pow, mul_pow, Real.sq_sqrt (by exact_mod_cast had.le),
        Real.sq_sqrt (by exact_mod_cast hbd.le)]
      exact_mod_cast h
    have hbnn : (0 : ℝ) ≤ (b.p : ℝ) * Real.sqrt a.d :=
      mul_nonneg (by exact_mod_cast hbp) had'.le
    have hann : (0 : ℝ) ≤ (a.p : ℝ) * Real.sqrt b.d :=
      mul_nonneg (by exact_mod_cast hap) hbd'.le
    by_contra hc
    push_neg at hc
    exact absurd (pow_le_pow_left₀ hann hc 2) (not_le.mpr h2)
  · intro h
    have hbnn : (0 : ℝ) ≤ (b.p : ℝ) * Real.sqrt a.d :=
      mul_nonneg (by exact_mod_cast hbp) had'.le
    have h2 : ((b.p : ℝ) * Real.sqrt a.d) ^ 2 < ((a.p : ℝ) * Real.sqrt b.d) ^ 2 :=
      pow_lt_pow_left₀ h hbnn (by norm_num)
    rw [mul_pow, mul_pow, Real.sq_sqrt (by exact_mod_cast had.le),
      Real.sq_sqrt (by exact_mod_cast hbd.le)] at h2
    exact_mod_cast h2

/-- Finite score statistics denote a well-formed quality value. -/
theorem ScoreStats.qval_wf {s : ScoreStats} (h : s.isFinite = true) : s.qval.wf := by
  rw [ScoreStats.isFinite, Bool.and_eq_true, decide_eq_true_iff, decide_eq_true_iff] at h
  exact ⟨abs_nonneg _, mul_pos h.1 h.2⟩

/-- The quality value of finite score statistics denotes exactly the
`float64` score `-|num / (sqrt varX * sqrt varY)|` computed by the rule
evaluation. -/
theorem ScoreStats.qval_toReal {s : ScoreStats} (h : s.isFinite = true) :
    s.qval.toReal = -|(s.num : ℝ) / (Real.sqrt (s.varX : ℚ) * Real.sqrt (s.varY : ℚ))| := by
  rw [ScoreStats.isFinite, Bool.and_eq_true, decide_eq_true_iff, decide_eq_true_iff] at h
  have hx : (0 : ℝ) < Real.sqrt (s.varX : ℚ) := Real.sqrt_pos.mpr (by exact_mod_cast h.1)
  have hy : (0 : ℝ) < Real.sqrt (s.varY : ℚ) := Real.sqrt_pos.mpr (by exact_mod_cast h.2)
  rw [QVal.toReal, ScoreStats.qval, abs_div, abs_of_pos (mul_pos hx hy)]
  have : ((s.varX * s.varY : ℚ) : ℝ) = (s.varX : ℚ) * (s.varY : ℚ) := by push_cast; ring
  rw [this, Real.sqrt_mul (by exact_mod_cast h.1.le)]
  push_cast
  ring

/-- When `findHead` returns a head, the candidate's score was finite and the
returned head carries exactly that score. -/
theorem findHead_some {best : Option QVal} {cand : ScoreStats} {h : QVal}
    (he : findHead best cand = some h) :
    cand.isFinite = true ∧ h = cand.qval := by
  rw [findHead.eq_def] at he
  split at he
  · rename_i hcond
    rw [Bool.and_eq_true] at hcond
    exact ⟨hcond.1, (Option.some.injEq _ _ ▸ he).symm⟩
  · exact absurd he (by simp)

/-- A candidate evaluation whose `numCovered` meets the bound preserves the
sweep invariant. -/
theorem evalCandidate_inv {ctx : RefineCtx} {s : SweepState} {u a : Bool}
    {nc : ℕ} {upd : RefinementM → RefinementM}
    (h : SweepInv ctx.minCoverage s) (hnc : ctx.minCoverage ≤ nc) :
    SweepInv ctx.minCoverage (evalCandidate ctx s u a nc upd) := by
  obtain ⟨hlog, hpol⟩ := h
  have heq : evalCandidate ctx s u a nc upd =
      match findHead s.bestHead (subsetScore ctx.T ctx.gt s.sub u a) with
      | some hh =>
          { s with
              bestHead := some hh, polled := some hh, ref := upd s.ref,
              log := s.log ++ [nc] }
      | none => { s with log := s.log ++ [nc] } := rfl
  rw [heq]
  cases hfh : findHead s.bestHead (subsetScore ctx.T ctx.gt s.sub u a) with
  | none =>
      refine ⟨fun x hx => ?_, hpol⟩
      rcases List.mem_append.mp hx with hx | hx
      · exact hlog x hx
      · exact (List.mem_singleton.mp hx) ▸ hnc
  | some hh =>
      obtain ⟨hfin, hq⟩ := findHead_some hfh
      refine ⟨fun x hx => ?_, fun h' hh' => ?_⟩
      · rcases List.mem_append.mp hx with hx | hx
        · exact hlog x hx
        · exact (List.mem_singleton.mp hx) ▸ hnc
      · obtain rfl := Option.some.inj (hh' : some hh = some h')
        exact hq ▸ ScoreStats.qval_wf hfin

/-- The pre-loop of phase A preserves the sweep invariant. -/
theorem phaseAFirst_inv (ctx : RefineCtx) (fuel : ℕ) :
    ∀ (r : ℕ) (s : SweepState), SweepInv ctx.minCoverage s →
      SweepInv ctx.minCoverage (phaseAFirst ctx fuel r s).1 := by
  induction fuel with
  | zero => intro r s h; exact h
  | succ fuel ih =>
      intro r s h
      simp only [phaseAFirst]
      split
      · exact h
      · split
        · exact h
        · exact ih _ _ h

/-- The sweep invariant only reads the instrumentation log and the retained
head, so it transfers along any state transform fixing those two fields. -/
theorem SweepInv_congr {mc : ℕ} {s s' : SweepState} (hlog : s'.log = s.log)
    (hpol : s'.polled = s.polled) (h : SweepInv mc s) : SweepInv mc s' :=
  ⟨fun x hx => h.1 x (hlog ▸ hx), fun q hq => h.2 q (hpol ▸ hq)⟩

/-- The main loop of phase A preserves the sweep invariant. -/
theorem phaseAMain_inv (ctx : RefineCtx) (fuel : ℕ) :
    ∀ (r : ℕ) (s : SweepState), SweepInv ctx.minCoverage s →
      SweepInv ctx.minCoverage (phaseAMain ctx fuel r s) := by
  induction fuel with
  | zero => intro r s h; exact h
  | succ fuel ih =>
      intro r s h
      simp only [phaseAMain]
      split
      · exact h
      · split
        · apply ih
          refine SweepInv_congr rfl rfl ?_
          split
          · split
            · refine SweepInv_congr rfl rfl ?_
              split
              · rename_i hg
                refine evalCandidate_inv ?_ hg.1
                split
                · rename_i hg1
                  exact evalCandidate_inv h hg1.1
                · exact h
              · split
                · rename_i hg1
                  exact evalCandidate_inv h hg1.1
                · exact h
            · split
              · rename_i hg
                refine evalCandidate_inv ?_ hg.1
                split
                · rename_i hg1
                  exact evalCandidate_inv h hg1.1
                · exact h
              · split
                · rename_i hg1
                  exact evalCandidate_inv h hg1.1
                · exact h
          · exact h
        · exact ih _ _ h

/-- The trailing nominal block of phase A preserves the sweep invariant. -/
theorem phaseATrailing_inv (ctx : RefineCtx) (s : SweepState)
    (h : SweepInv ctx.minCoverage s) :
    SweepInv ctx.minCoverage (phaseATrailing ctx s) := by
  simp only [phaseATrailing]
  split
  · split
    · rename_i hg
      refine evalCandidate_inv ?_ hg.1
      split
      · rename_i hg1
        exact evalCandidate_inv h hg1
      · exact h
    · split
      · rename_i hg1
        exact evalCandidate_inv h hg1
      · exact h
  · exact h

/-- Phase A preserves the sweep invariant. -/
theorem phaseA_inv (ctx : RefineCtx) (s : SweepState)
    (h : SweepInv ctx.minCoverage s) :
    SweepInv ctx.minCoverage (phaseA ctx s) := by
  simp only [phaseA]
  split
  · refine SweepInv_congr rfl rfl ?_
    refine phaseATrailing_inv _ _ ?_
    refine phaseAMain_inv _ _ _ _ ?_
    exact SweepInv_congr rfl rfl (phaseAFirst_inv _ _ _ _ h)
  · exact SweepInv_congr rfl rfl (phaseAFirst_inv _ _ _ _ h)

/-- The pre-loop of phase B preserves the sweep invariant. -/
theorem phaseBFirst_inv (ctx : RefineCtx) (fuel : ℕ) :
    ∀ (r : ℕ) (s : SweepState), SweepInv ctx.minCoverage s →
      SweepInv ctx.minCoverage (phaseBFirst ctx fuel r s).1 := by
  induction fuel with
  | zero => intro r s h; exact h
  | succ fuel ih =>
      intro r s h
      simp only [phaseBFirst]
      split
      · exact h
      · exact ih _ _ h

/-- The main loop of phase B preserves the sweep invariant. -/
theorem phaseBMain_inv (ctx : RefineCtx) (fuel : ℕ) :
    ∀ (r : ℕ) (s : SweepState), SweepInv ctx.minCoverage s →
      SweepInv ctx.minCoverage (phaseBMain ctx fuel r s) := by
  induction fuel with
  | zero => intro r s h; exact h
  | succ fuel ih =>
      intro r s h
      simp only [phaseBMain]
      split
      · apply ih
        refine SweepInv_congr rfl rfl ?_
        split
        · split
          · refine SweepInv_congr rfl rfl ?_
            split
            · rename_i hg
              refine evalCandidate_inv ?_ hg.1
              split
              · rename_i hg1
                exact evalCandidate_inv h hg1
              · exact h
            · split
              · rename_i hg1
                exact evalCandidate_inv h hg1
              · exact h
          · split
            · rename_i hg
              refine evalCandidate_inv ?_ hg.1
              split
              · rename_i hg1
                exact evalCandidate_inv h hg1
              · exact h
            · split
              · rename_i hg1
                exact evalCandidate_inv h hg1
              · exact h
        · exact h
      · exact ih _ _ h

/-- The trailing nominal block of phase B preserves the sweep invariant. -/
theorem phaseBTrailing_inv (ctx : RefineCtx) (s : SweepState)
    (h : SweepInv ctx.minCoverage s) :
    SweepInv ctx.minCoverage (phaseBTrailing ctx s) := by
  simp only [phaseBTrailing]
  split
  · split
    · rename_i hg
      refine evalCandidate_inv ?_ hg.1
      split
      · rename_i hg1
        exact evalCandidate_inv h hg1
      · exact h
    · split
      · rename_i hg1
        exact evalCandidate_inv h hg1
      · exact h
  · exact h

/-- The covered-side candidate of phase C preserves the sweep invariant. -/
theorem phaseCCovered_inv (ctx : RefineCtx) (ncCov : ℕ) (s0 : SweepState)
    (h : SweepInv ctx.minCoverage s0) :
    SweepInv ctx.minCoverage (phaseCCovered ctx ncCov s0) := by
  simp only [phaseCCovered]
  split
  · rename_i hg
    exact evalCandidate_inv h hg.1
  · exact h

/-- The complement candidate of phase C preserves the sweep invariant. -/
theorem phaseCUncovered_inv (ctx : RefineCtx) (ncUnc : ℕ) (s1 : SweepState)
    (h : SweepInv ctx.minCoverage s1) :
    SweepInv ctx.minCoverage (phaseCUncovered ctx ncUnc s1) := by
  simp only [phaseCUncovered]
  split
  · rename_i hg
    exact evalCandidate_inv h hg.1
  · exact h

/-- Phase C preserves the sweep invariant. -/
theorem phaseC_inv (ctx : RefineCtx) (accNeg : ℕ) (s : SweepState)
    (h : SweepInv ctx.minCoverage s) :
    SweepInv ctx.minCoverage (phaseC ctx accNeg s) := by
  simp only [phaseC]
  split
  · refine phaseCUncovered_inv _ _ _ ?_
    refine phaseCCovered_inv _ _ _ ?_
    split
    · exact SweepInv_congr rfl rfl h
    · exact h
  · exact h

/-- Phase D preserves the sweep invariant. -/
theorem phaseD_inv (ctx : RefineCtx) (accNeg : ℕ) (prevThrNeg : ℚ)
    (prevRNeg : ℤ) (s : SweepState) (h : SweepInv ctx.minCoverage s) :
    SweepInv ctx.minCoverage (phaseD ctx accNeg prevThrNeg prevRNeg s) := by
  simp only [phaseD]
  split
  · split
    · rename_i hg
      refine evalCandidate_inv ?_ hg
      split
      · rename_i hg1
        exact evalCandidate_inv h hg1.1
      · exact h
    · split
      · rename_i hg1
        exact evalCandidate_inv h hg1.1
      · exact h
  · exact h

/-- Phase B preserves the sweep invariant. -/
theorem phaseB_inv (ctx : RefineCtx) (s : SweepState)
    (h : SweepInv ctx.minCoverage s) :
    SweepInv ctx.minCoverage (phaseB ctx s) := by
  simp only [phaseB]
  split
  · refine phaseBMain_inv _ _ _ _ ?_
    refine SweepInv_congr rfl rfl ?_
    exact phaseBFirst_inv _ _ _ _ (SweepInv_congr rfl rfl h)
  · refine SweepInv_congr rfl rfl ?_
    exact phaseBFirst_inv _ _ _ _ (SweepInv_congr rfl rfl h)

/-- The initial sweep state satisfies the invariant: its log is empty and no
head has been computed yet. -/
theorem initialSweepState_inv (ctx : RefineCtx) (ch : Option QVal) :
    SweepInv ctx.minCoverage (initialSweepState ctx ch) :=
  ⟨fun x hx => absurd hx (List.not_mem_nil x), fun q hq => Option.noConfusion hq⟩

/-- The full sweep establishes the invariant: every logged candidate meets
the coverage bound and the retained head is well-formed. -/
theorem findRefinement_inv (ctx : RefineCtx) (ch : Option QVal) :
    SweepInv ctx.minCoverage (findRefinement ctx ch) := by
  simp only [findRefinement]
  refine SweepInv_congr rfl rfl ?_
  refine phaseD_inv _ _ _ _ _ ?_
  refine phaseC_inv _ _ _ ?_
  refine phaseBTrailing_inv _ _ ?_
  refine phaseB_inv _ _ ?_
  exact phaseA_inv _ _ (initialSweepState_inv ctx ch)

/-- C1: a candidate prediction vector whose variance term is zero — or a
ground-truth vector with zero variance — produces a non-finite quality score
(`varY` is the prediction's `n·Σy² − (Σy)²`, `varX` the ground truth's); the
head refinement rejects such a candidate (`findHead` returns null for every
current best), and consequently the refinement search never returns a
refinement built from such a head: every head stored in the refinement
returned by `findRefinement` is a well-formed finite score. -/
theorem zero_variance_head_rejected :
    (∀ (n : ℕ) (pred gt : ℕ → ℕ),
        (calculateLabelWisePrediction n pred gt).varY = 0 ∨
          (calculateLabelWisePrediction n pred gt).varX = 0 →
        (calculateLabelWisePrediction n pred gt).isFinite = false ∧
          ∀ best, findHead best (calculateLabelWisePrediction n pred gt) = none) ∧
      ∀ (ctx : RefineCtx) (ch : Option QVal) (h : QVal),
        (findRefinement ctx ch).ref.head = some h → h.wf := by
  constructor
  · intro n pred gt hz
    have hfin : (calculateLabelWisePrediction n pred gt).isFinite = false := by
      rw [ScoreStats.isFinite]
      rcases hz with hz | hz <;> simp [hz]
    refine ⟨hfin, fun best => ?_⟩
    rw [findHead.eq_def, hfin]
    simp
  · intro ctx ch h hh
    have hpol : (findRefinement ctx ch).polled = some h := by
      have : (findRefinement ctx ch).ref.head = (findRefinement ctx ch).polled := rfl
      exact this ▸ hh
    exact (findRefinement_inv ctx ch).2 h hpol

unseal Rat.add Rat.mul Rat.sub Rat.inv in
/-- Witness for C1 at a concrete input: the constant prediction vector
`[1, 1]` has zero variance, its score is non-finite and rejected; and the
head found by the sample sweep is well-formed. -/
theorem zero_variance_head_rejected_witness :
    ((calculateLabelWisePrediction 2 (fun _ => 1) sampleCtx.gt).isFinite = false ∧
        findHead none (calculateLabelWisePrediction 2 (fun _ => 1) sampleCtx.gt) = none) ∧
      QVal.wf ⟨1, 1⟩ :=
  ⟨⟨(zero_variance_head_rejected.1 2 (fun _ => 1) sampleCtx.gt (Or.inl (by decide))).1,
      (zero_variance_head_rejected.1 2 (fun _ => 1) sampleCtx.gt (Or.inl (by decide))).2 none⟩,
    zero_variance_head_rejected.2 sampleCtx none ⟨1, 1⟩ (by decide)⟩

/-- C7: with `minCoverage = floor(minSupport · N)` as computed by
`induceRule`, every candidate split evaluated by `findRefinement` — in all
four sweep phases, on the covered side as well as the complement — covers at
least `minCoverage` examples (the instrumentation log records the
`numCovered` of every head evaluation). -/
theorem findRefinement_respects_minCoverage (ms : ℚ) (N : ℕ) (ctx : RefineCtx)
    (ch : Option QVal) (hmc : ctx.minCoverage = minCoverageOf ms N) :
    ∀ nc ∈ (findRefinement ctx ch).log, minCoverageOf ms N ≤ nc := by
  intro nc hnc
  exact hmc ▸ (findRefinement_inv ctx ch).1 nc hnc

unseal Rat.add Rat.mul Rat.sub Rat.inv in
/-- Witness for C7 at a concrete input: with `minSupport = 1/2` over two
examples the bound is `1`, and the first candidate logged by the sample
sweep covers exactly one example. -/
theorem findRefinement_respects_minCoverage_witness :
    minCoverageOf (1 / 2) 2 ≤ 1 :=
  findRefinement_respects_minCoverage (1 / 2) 2 sampleCtxHalf none (by decide) 1
    (by decide)

/-- Characterisation of the `adjustSplit` walk: either it returns its
accumulator untouched (no steps, or the very first position fails the
check), or it returns the `k`-th position of a maximal initial run of
positions that all satisfy the check. -/
theorem adjustSplitWalk_spec (values : ℤ → ℚ) (thr : ℚ) (asc : Bool)
    (dir : ℤ) : ∀ (fuel : ℕ) (start acc : ℤ),
    (adjustSplitWalk values thr asc dir fuel start acc = acc ∧
      (fuel = 0 ∨ adjustCheck values thr asc start = false)) ∨
    ∃ k : ℕ, k < fuel ∧
      adjustSplitWalk values thr asc dir fuel start acc = start + k * dir ∧
      (∀ j : ℕ, j ≤ k → adjustCheck values thr asc (start + j * dir) = true) ∧
      (k + 1 = fuel ∨
        adjustCheck values thr asc (start + (k + 1) * dir) = false) := by
  intro fuel
  induction fuel with
  | zero => intro start acc; exact Or.inl ⟨rfl, Or.inl rfl⟩
  | succ fuel ih =>
      intro start acc
      by_cases hsat : adjustCheck values thr asc start = true
      case neg =>
          refine Or.inl ⟨?_, Or.inr (Bool.not_eq_true _ ▸ hsat)⟩
          simp [adjustSplitWalk, Bool.not_eq_true _ ▸ hsat]
      case pos =>
          have hw : adjustSplitWalk values thr asc dir (fuel + 1) start acc =
              adjustSplitWalk values thr asc dir fuel (start + dir) start := by
            simp [adjustSplitWalk, hsat]
          rcases ih (start + dir) start with ⟨hval, hf⟩ | ⟨k, hk, hval, hall, hend⟩
          · refine Or.inr ⟨0, Nat.succ_pos _, ?_, ?_, ?_⟩
            · rw [hw, hval]; push_cast; ring
            · intro j hj
              obtain rfl : j = 0 := Nat.le_zero.mp hj
              simpa using hsat
            · rcases hf with hf | hf
              · exact Or.inl (by omega)
              · refine Or.inr ?_
                push_cast
                simpa using hf
          · refine Or.inr ⟨k + 1, by omega, ?_, ?_, ?_⟩
            · rw [hw, hval]
              push_cast; ring
            · intro j hj
              cases j with
              | zero => simpa using hsat
              | succ j =>
                  push_cast
                  rw [show start + ((j : ℤ) + 1) * dir = start + dir + (j : ℤ) * dir
                    by ring]
                  exact hall j (by omega)
            · rcases hend with hend | hend
              · exact Or.inl (by omega)
              · refine Or.inr ?_
                push_cast
                rw [show start + ((k : ℤ) + 1 + 1) * dir =
                    start + dir + ((k : ℤ) + 1) * dir by ring]
                exact hend

/-- C6: `adjustSplit` is idempotent — applying it a second time to the
position returned by a first call, with the same previous position and
threshold, returns that same position. -/
theorem adjustSplit_idempotent (values : ℤ → ℚ) (conditionEnd conditionPrevious : ℤ)
    (threshold : ℚ) :
    adjustSplit values (adjustSplit values conditionEnd conditionPrevious threshold)
        conditionPrevious threshold =
      adjustSplit values conditionEnd conditionPrevious threshold := by
  set e := conditionEnd with he
  set p := conditionPrevious with hp
  rcases adjustSplitWalk_spec values threshold (decide (e < p))
      (if e < p then 1 else -1)
      ((e + (if e < p then 1 else -1) - p).natAbs)
      (e + (if e < p then 1 else -1)) e with ⟨hval, _⟩ | ⟨k, hk, hval, hall, hend⟩
  · -- first call returned `e` unchanged: the second call repeats it verbatim
    show adjustSplit values (adjustSplit values e p threshold) p threshold = _
    rw [show adjustSplit values e p threshold = e from hval]
    exact hval
  · -- the first call moved: `e' = start + k·dir`, inside the walked range
    show adjustSplit values (adjustSplit values e p threshold) p threshold = _
    rw [show adjustSplit values e p threshold =
        e + (if e < p then 1 else -1) + k * (if e < p then 1 else -1) from hval]
    by_cases hep : e < p
    · -- ascending: positions e+1 … p-1
      simp only [if_pos hep, decide_eq_true hep] at hk hall hend ⊢
      have hsteps : (e + 1 - p).natAbs = (p - e - 1).toNat := by omega
      rw [hsteps] at hk
      have he' : e + 1 + k * 1 < p := by omega
      have hlt : e + 1 + (k : ℤ) * 1 < p := he'
      unfold adjustSplit
      simp only [if_pos hlt, decide_eq_true hlt]
      rcases hend with hend | hend
      · -- the walk exhausted its fuel: e' = p - 1, no steps remain
        have hz : (e + 1 + k * 1 + 1 - p).natAbs = 0 := by omega
        rw [hz]
        rfl
      · -- the next position fails the check: the second walk stops at once
        have hpos : e + 1 + (k : ℤ) * 1 + 1 = e + 1 + ((k : ℕ) + 1 : ℕ) * 1 := by
          push_cast; ring
        rcases hn : (e + 1 + k * 1 + 1 - p).natAbs with n | n
        · rfl
        · show adjustSplitWalk values threshold true 1 (n + 1)
              (e + 1 + k * 1 + 1) (e + 1 + k * 1) = _
          have hsat' : adjustCheck values threshold true (e + 1 + k * 1 + 1) = false := by
            rw [hpos]
            simpa using hend
          simp only [adjustSplitWalk, hsat']
          simp
    · -- descending (e ≥ p): positions e-1 … p+1, or the single step at e = p
      simp only [if_neg hep, decide_eq_false hep] at hk hall hend ⊢
      rcases lt_or_eq_of_le (not_lt.mp hep) with hgt | heq
      · -- e > p
        have hsteps : (e + -1 - p).natAbs = (e - 1 - p).toNat := by omega
        rw [hsteps] at hk
        have he' : ¬ (e + -1 + k * -1 < p) := by omega
        unfold adjustSplit
        simp only [if_neg he', decide_eq_false he']
        rcases hend with hend | hend
        · have hz : (e + -1 + k * -1 + -1 - p).natAbs = 0 := by omega
          rw [hz]
          rfl
        · have hpos : e + -1 + (k : ℤ) * -1 + -1 = e + -1 + ((k : ℕ) + 1 : ℕ) * -1 := by
            push_cast; ring
          rcases hn : (e + -1 + k * -1 + -1 - p).natAbs with n | n
          · rfl
          · show adjustSplitWalk values threshold false (-1) (n + 1)
                (e + -1 + k * -1 + -1) (e + -1 + k * -1) = _
            have hsat' : adjustCheck values threshold false (e + -1 + k * -1 + -1) = false := by
              rw [hpos]
              simpa using hend
            simp only [adjustSplitWalk, hsat']
            simp
      · -- e = p: the single walked position is p - 1, and the second call
        -- ascends with zero steps
        subst heq
        have hk1 : (e + -1 - e).natAbs = 1 := by omega
        rw [hk1] at hk
        obtain rfl : k = 0 := by omega
        have hlt : e + -1 + (0 : ℕ) * -1 < e := by omega
        unfold adjustSplit
        simp only [if_pos hlt, decide_eq_true hlt]
        have hz : (e + -1 + (0 : ℕ) * -1 + 1 - e).natAbs = 0 := by omega
        rw [hz]
        rfl

/-- The count of covered statistics in a slot range never exceeds the range
length. -/
theorem countPos_le (cc : ℕ → ℕ) (start stop : ℕ) :
    countPos cc start stop ≤ stop - start := by
  unfold countPos
  calc ((List.range' start (stop - start)).filter fun j => decide (0 < cc j)).length
      ≤ (List.range' start (stop - start)).length := List.length_filter_le _ _
    _ = stop - start := List.length_range' _ _ _

/-- C4: after `applyPrediction`, for every time slot `t`, `prediction[t]`
equals the number of example indices in slot `t` (the
`[indices[t], indices[t+1])` range) whose coverage count is positive. -/
theorem applyPrediction_updates_prediction (N T : ℕ) (indices : ℕ → ℕ)
    (isCov : ℕ → Bool) (st : LWStats) (t : ℕ) (ht : t < T)
    (hsz : indices (t + 1) - indices t < U32) :
    (applyPrediction N T indices isCov st).pred t =
      ((slotMembers indices t).filter fun i =>
        decide (0 < (applyPrediction N T indices isCov st).cc i)).length := by
  have hle := countPos_le
    ((List.range N).foldl
      (fun s i => if isCov i then increaseCoverageCount s i else s) st).cc
    (indices t) (indices (t + 1))
  show (if t < T then _ % U32 else _) = _
  rw [if_pos ht]
  exact Nat.mod_eq_of_lt (lt_of_le_of_lt hle hsz)

/-- Witness for C4 at a concrete input: two examples in two singleton slots,
the mask covering example 1 only; afterwards `prediction[1] = 1`, the number
of covered examples of slot 1. -/
theorem applyPrediction_updates_prediction_witness :
    (applyPrediction 2 2 (fun t => t) (fun i => decide (i = 1)) sampleStats).pred 1 =
      ((slotMembers (fun t => t) 1).filter fun i =>
        decide (0 <
          (applyPrediction 2 2 (fun t => t) (fun i => decide (i = 1)) sampleStats).cc i)).length :=
  applyPrediction_updates_prediction 2 2 (fun t => t) (fun i => decide (i = 1))
    sampleStats 1 (by decide) (by decide)

/-- `updateCoveredStatistic` never modifies the coverage counts. -/
theorem updateCoveredStatistic_cc (slot : ℕ → ℕ) (st : LWStats) (i : ℕ)
    (w : ℚ) (r : Bool) : (updateCoveredStatistic slot st i w r).cc = st.cc := by
  unfold updateCoveredStatistic
  split <;> rfl

/-- `updateCoveredStatistic` never modifies the committed predictions. -/
theorem updateCoveredStatistic_pred (slot : ℕ → ℕ) (st : LWStats) (i : ℕ)
    (w : ℚ) (r : Bool) : (updateCoveredStatistic slot st i w r).pred = st.pred := by
  unfold updateCoveredStatistic
  split <;> rfl

/-- The covered-branch filter leaves the committed predictions untouched. -/
theorem filterCoveredStats_pred (slot : ℕ → ℕ) (w : ℕ → ℚ) (S : List ℕ)
    (st : LWStats) : (filterCoveredStats slot w S st).pred = st.pred := by
  unfold filterCoveredStats
  have : ∀ (L : List ℕ) (s0 : LWStats),
      (L.foldl (fun s i => updateCoveredStatistic slot s i (w i) false) s0).pred
        = s0.pred := by
    intro L
    induction L with
    | nil => intro s0; rfl
    | cons i L ih => intro s0; rw [List.foldl_cons, ih, updateCoveredStatistic_pred]
  rw [this]
  rfl

unseal Rat.add Rat.mul Rat.sub Rat.inv in
/-- C9 counterexample: the `uint32` decrement of `addToMissing` can wrap
around below zero on a reachable state.  Two examples in two singleton
slots; example `0` is missing on the feature and receives weight `0` from
the instance sub-sample, example `1` weight `2`.  Installing the sampled
weights (`createSubset`) leaves `totalPrediction = [0, 1]` — the zero-weight
example is not counted — but the `findRefinement` setup loop calls
`addToMissing` for every missing example regardless of weight, decrementing
slot `0`'s uncovered counter from `0` to `2^32 - 1`. -/
theorem addToMissing_wraps_below_zero :
    (createStatisticsSubset (installSampledWeights 2 (fun i => i)
        (fun i => if i = 0 then 0 else 2) (mkLabelWiseStatistics fun _ => 0))).uncovered 0
      = 0 ∧
    (([0] : List ℕ).foldl
        (fun sb i => addToMissing (fun i => i)
          (installSampledWeights 2 (fun i => i) (fun i => if i = 0 then 0 else 2)
            (mkLabelWiseStatistics fun _ => 0)).cc sb i
          (if i = 0 then 0 else 2))
        (createStatisticsSubset (installSampledWeights 2 (fun i => i)
          (fun i => if i = 0 then 0 else 2) (mkLabelWiseStatistics fun _ => 0)))).uncovered 0
      = 2 ^ 32 - 1 :=
  ⟨by decide, by decide⟩

/-- The install fold (`addSampledStatistic` for every nonzero-weight index)
never modifies the coverage counts. -/
theorem installFold_cc (slot : ℕ → ℕ) (w : ℕ → ℚ) :
    ∀ (L : List ℕ) (s0 : LWStats),
      (L.foldl (fun s i => if w i ≠ 0 then updateCoveredStatistic slot s i (w i) false
        else s) s0).cc = s0.cc := by
  intro L
  induction L with
  | nil => intro s0; rfl
  | cons i L ih =>
      intro s0
      rw [List.foldl_cons]
      by_cases hwi : w i ≠ 0
      · rw [if_pos hwi, ih, updateCoveredStatistic_cc]
      · rw [if_neg hwi, ih]

/-- The install fold adds, modulo `2^32`, one to slot `t`'s total-prediction
counter for each listed index with nonzero weight, zero coverage count and
slot `t`. -/
theorem installFold_totalPred (slot : ℕ → ℕ) (w : ℕ → ℚ) (t : ℕ) :
    ∀ (L : List ℕ) (s0 : LWStats), s0.totalPred t < U32 →
      (L.foldl (fun s i => if w i ≠ 0 then updateCoveredStatistic slot s i (w i) false
          else s) s0).totalPred t
        = (s0.totalPred t + (L.filter fun i =>
            decide (w i ≠ 0) && (decide (s0.cc i = 0) && decide (slot i = t))).length) % U32 := by
  intro L
  induction L with
  | nil =>
      intro s0 h0
      simpa using (Nat.mod_eq_of_lt h0).symm
  | cons i L ih =>
      intro s0 h0
      rw [List.foldl_cons]
      by_cases hwi : w i ≠ 0
      · rw [if_pos hwi]
        by_cases hcc0 : s0.cc i = 0
        · have hstep : updateCoveredStatistic slot s0 i (w i) false =
              { s0 with
                  totalPred := Function.update s0.totalPred (slot i)
                    (u32add1 (s0.totalPred (slot i))) } := by
            unfold updateCoveredStatistic
            rw [if_pos hcc0]
            rfl
          by_cases hslot : slot i = t
          · have h1 : (updateCoveredStatistic slot s0 i (w i) false).totalPred t =
                (s0.totalPred t + 1) % U32 := by
              rw [hstep]
              show Function.update s0.totalPred (slot i) _ t = _
              rw [hslot, Function.update_same]
              rfl
            have h2 := ih (updateCoveredStatistic slot s0 i (w i) false)
              (by rw [h1]; exact Nat.mod_lt _ (by norm_num [U32]))
            rw [h2, updateCoveredStatistic_cc, h1, Nat.mod_add_mod]
            rw [List.filter_cons, if_pos (by simp [hwi, hcc0, hslot])]
            simp only [List.length_cons]
            congr 1
            omega
          · have h1 : (updateCoveredStatistic slot s0 i (w i) false).totalPred t =
                s0.totalPred t := by
              rw [hstep]
              show Function.update s0.totalPred (slot i) _ t = _
              rw [Function.update_noteq fun hc => hslot hc.symm]
            have h2 := ih (updateCoveredStatistic slot s0 i (w i) false) (h1 ▸ h0)
            rw [h2, updateCoveredStatistic_cc, h1,
              List.filter_cons, if_neg (by simp [hslot])]
        · have hstep : updateCoveredStatistic slot s0 i (w i) false = s0 := by
            unfold updateCoveredStatistic
            rw [if_neg hcc0]
          rw [hstep, ih s0 h0, List.filter_cons, if_neg (by simp [hcc0])]
      · rw [if_neg hwi, ih s0 h0, List.filter_cons, if_neg (by simp [hwi])]

/-- As long as at least as many contributions were installed as are removed,
the `addToMissing` fold subtracts exactly one from slot `t`'s uncovered
counter per missing index with zero coverage count and slot `t`, without
wrapping. -/
theorem missingFold_uncovered (slot : ℕ → ℕ) (cc : ℕ → ℕ) (w : ℕ → ℚ) (t : ℕ) :
    ∀ (M : List ℕ) (sb : SubsetState), sb.uncovered t < U32 →
      (M.filter fun i => decide (cc i = 0) && decide (slot i = t)).length ≤ sb.uncovered t →
      (M.foldl (fun s i => addToMissing slot cc s i (w i)) sb).uncovered t
        = sb.uncovered t -
          (M.filter fun i => decide (cc i = 0) && decide (slot i = t)).length := by
  intro M
  induction M with
  | nil => intro sb _ _; simp
  | cons i M ih =>
      intro sb hlt hbound
      rw [List.foldl_cons]
      by_cases hcc0 : cc i = 0
      · have hstep : addToMissing slot cc sb i (w i) =
            { sb with
                uncovered := Function.update sb.uncovered (slot i)
                  (u32sub1 (sb.uncovered (slot i))) } := by
          unfold addToMissing
          rw [if_pos hcc0]
        by_cases hslot : slot i = t
        · have hfc : (List.filter (fun i => decide (cc i = 0) && decide (slot i = t))
              (i :: M)).length
                = (M.filter fun i => decide (cc i = 0) && decide (slot i = t)).length + 1 := by
            rw [List.filter_cons, if_pos (by simp [hcc0, hslot])]
            simp
          rw [hfc] at hbound ⊢
          have hpos : 1 ≤ sb.uncovered t := by omega
          have h1 : (addToMissing slot cc sb i (w i)).uncovered t =
              sb.uncovered t - 1 := by
            rw [hstep]
            show Function.update sb.uncovered (slot i) _ t = _
            rw [hslot, Function.update_same]
            unfold u32sub1
            have : sb.uncovered t + (U32 - 1) = (sb.uncovered t - 1) + U32 := by omega
            rw [this, Nat.add_mod_right, Nat.mod_eq_of_lt (by omega)]
          rw [ih (addToMissing slot cc sb i (w i)) (by rw [h1]; omega)
            (by rw [h1]; omega), h1]
          omega
        · have h1 : (addToMissing slot cc sb i (w i)).uncovered t =
              sb.uncovered t := by
            rw [hstep]
            show Function.update sb.uncovered (slot i) _ t = _
            rw [Function.update_noteq fun hc => hslot hc.symm]
          have hfc : (List.filter (fun i => decide (cc i = 0) && decide (slot i = t))
              (i :: M)).length
                = (M.filter fun i => decide (cc i = 0) && decide (slot i = t)).length := by
            rw [List.filter_cons, if_neg (by simp [hslot])]
          rw [hfc] at hbound ⊢
          rw [ih (addToMissing slot cc sb i (w i)) (h1 ▸ hlt) (h1 ▸ hbound), h1]
      · have hstep : addToMissing slot cc sb i (w i) = sb := by
          unfold addToMissing
          rw [if_neg hcc0]
        have hfc : (List.filter (fun i => decide (cc i = 0) && decide (slot i = t))
            (i :: M)).length
              = (M.filter fun i => decide (cc i = 0) && decide (slot i = t)).length := by
          rw [List.filter_cons, if_neg (by simp [hcc0])]
        rw [hfc] at hbound ⊢
        rw [hstep, ih sb hlt hbound]

/-- C9 (amended): `addToMissing` decrements the uncovered counter for every
missing example with zero coverage count regardless of its weight, and this
CAN wrap the `uint32` counter below zero (see the counterexample); when every
uncovered missing example carries a nonzero weight — so that it was counted
when the sampled weights were installed — the decrements never wrap: the
final counter value is exactly the installed total minus the number of
uncovered missing examples of the slot. -/
theorem addToMissing_no_wrap_for_weighted_missing
    (N : ℕ) (slot : ℕ → ℕ) (w : ℕ → ℚ) (missing : List ℕ) (st : LWStats) (t : ℕ)
    (hnodup : missing.Nodup) (hmN : ∀ i ∈ missing, i < N)
    (hw : ∀ i ∈ missing, st.cc i = 0 → w i ≠ 0)
    (hsmall : st.pred t + N < U32) :
    (missing.filter fun i => decide (st.cc i = 0) && decide (slot i = t)).length ≤
      st.pred t + ((List.range N).filter fun i =>
        decide (w i ≠ 0) && (decide (st.cc i = 0) && decide (slot i = t))).length ∧
    (missing.foldl
        (fun sb i => addToMissing slot (installSampledWeights N slot w st).cc sb i (w i))
        (createStatisticsSubset (installSampledWeights N slot w st))).uncovered t
      = st.pred t + ((List.range N).filter fun i =>
          decide (w i ≠ 0) && (decide (st.cc i = 0) && decide (slot i = t))).length -
        (missing.filter fun i => decide (st.cc i = 0) && decide (slot i = t)).length := by
  have hccst : (installSampledWeights N slot w st).cc = st.cc := by
    unfold installSampledWeights
    rw [installFold_cc]
    rfl
  have hA_le : ((List.range N).filter fun i =>
      decide (w i ≠ 0) && (decide (st.cc i = 0) && decide (slot i = t))).length ≤ N := by
    calc ((List.range N).filter _).length ≤ (List.range N).length :=
          List.length_filter_le _ _
      _ = N := List.length_range N
  have hTP : (installSampledWeights N slot w st).totalPred t =
      st.pred t + ((List.range N).filter fun i =>
        decide (w i ≠ 0) && (decide (st.cc i = 0) && decide (slot i = t))).length := by
    unfold installSampledWeights
    rw [installFold_totalPred slot w t (List.range N) (resetCoveredStatistics st)
      (lt_of_le_of_lt (Nat.le_add_right _ N) hsmall)]
    simp only [resetCoveredStatistics]
    exact Nat.mod_eq_of_lt (by omega)
  have hDA : (missing.filter fun i => decide (st.cc i = 0) && decide (slot i = t)).length ≤
      ((List.range N).filter fun i =>
        decide (w i ≠ 0) && (decide (st.cc i = 0) && decide (slot i = t))).length := by
    refine List.Subperm.length_le ?_
    refine List.Nodup.subperm (hnodup.filter _) ?_
    intro x hx
    rw [List.mem_filter] at hx ⊢
    obtain ⟨hxm, hxp⟩ := hx
    simp only [Bool.and_eq_true, decide_eq_true_eq] at hxp
    refine ⟨List.mem_range.mpr (hmN x hxm), ?_⟩
    simp only [Bool.and_eq_true, decide_eq_true_eq]
    exact ⟨hw x hxm hxp.1, hxp.1, hxp.2⟩
  refine ⟨by omega, ?_⟩
  have hsub : (createStatisticsSubset (installSampledWeights N slot w st)).uncovered t =
      st.pred t + ((List.range N).filter fun i =>
        decide (w i ≠ 0) && (decide (st.cc i = 0) && decide (slot i = t))).length := hTP
  have := missingFold_uncovered slot (installSampledWeights N slot w st).cc w t missing
    (createStatisticsSubset (installSampledWeights N slot w st))
    (by rw [hsub]; omega)
    (by rw [hsub, hccst]; omega)
  rw [this, hsub, hccst]

unseal Rat.add Rat.mul Rat.sub Rat.inv in
/-- Witness for the amended C9 at a concrete input: with both examples
weighted, the missing example `0` was counted at install time and the
decrement brings slot `0`'s uncovered counter from `1` back to `0` without
wrapping. -/
theorem addToMissing_no_wrap_for_weighted_missing_witness :
    (([0] : List ℕ).foldl
        (fun sb i => addToMissing (fun j => j)
          (installSampledWeights 2 (fun j => j) (fun _ => 1) sampleStats).cc sb i
          ((fun _ => (1 : ℚ)) i))
        (createStatisticsSubset
          (installSampledWeights 2 (fun j => j) (fun _ => 1) sampleStats))).uncovered 0
      = 0 := by
  have h := (addToMissing_no_wrap_for_weighted_missing 2 (fun j => j) (fun _ => 1)
    [0] sampleStats 0 (by decide) (by decide) (by decide) (by decide)).2
  rw [h]
  decide

/-- Asymmetry of the score comparison on well-formed values. -/
theorem QVal.blt_asymm {a b : QVal} (ha : a.wf) (hb : b.wf)
    (h : QVal.blt a b = true) : QVal.blt b a = false := by
  rw [QVal.blt_iff_toReal ha hb] at h
  rw [← Bool.not_eq_true, QVal.blt_iff_toReal hb ha]
  exact lt_asymm h

/-- Transitivity of the score comparison on well-formed values. -/
theorem QVal.blt_trans {a b c : QVal} (ha : a.wf) (hb : b.wf) (hc : c.wf)
    (h1 : QVal.blt a b = true) (h2 : QVal.blt b c = true) :
    QVal.blt a c = true := by
  rw [QVal.blt_iff_toReal ha hb] at h1
  rw [QVal.blt_iff_toReal hb hc] at h2
  rw [QVal.blt_iff_toReal ha hc]
  exact lt_trans h1 h2

/-- Mixed transitivity: strictly below `b` and `c` not strictly below `b`
means strictly below `c`. -/
theorem QVal.blt_trans_not {a b c : QVal} (ha : a.wf) (hb : b.wf) (hc : c.wf)
    (h1 : QVal.blt a b = true) (h2 : QVal.blt c b = false) :
    QVal.blt a c = true := by
  rw [QVal.blt_iff_toReal ha hb] at h1
  rw [← Bool.not_eq_true, QVal.blt_iff_toReal hc hb] at h2
  rw [QVal.blt_iff_toReal ha hc]
  exact lt_of_lt_of_le h1 (not_lt.mp h2)

/-- Characterisation of the sequential best-refinement reduction: starting
from `best` at absolute position `j`, either every candidate fails the
strict-improvement test against `best` (which is then returned), or the
result is the earliest candidate of the list that no candidate strictly
beats: it is strictly better than the incoming `best`, every earlier
candidate is strictly worse, and no candidate at all is strictly better. -/
theorem pickBestGo_spec (l : List (Option QVal)) :
    ∀ (j : ℕ) (best : Option (ℕ × QVal)),
      (∀ m b, best = some (m, b) → b.wf) →
      (∀ q, some q ∈ l → q.wf) →
      (pickBestGo j best l = best ∧
        (∀ k (q' : QVal), l.get? k = some (some q') →
          isBetterThan (some q') (Option.map Prod.snd best) = false)) ∨
      (∃ k q, k < l.length ∧ l.get? k = some (some q) ∧
        pickBestGo j best l = some (j + k, q) ∧ q.wf ∧
        (∀ k' (q' : QVal), l.get? k' = some (some q') → QVal.blt q' q = false) ∧
        (∀ k' (q' : QVal), k' < k → l.get? k' = some (some q') →
          QVal.blt q q' = true) ∧
        (∀ m b, best = some (m, b) → QVal.blt q b = true)) := by
  induction l with
  | nil =>
      intro j best _ _
      exact Or.inl ⟨rfl, fun k q' hk => by simp at hk⟩
  | cons c rest ih =>
      intro j best hbwf hlwf
      have hlwf' : ∀ q, some q ∈ rest → q.wf := fun q hq =>
        hlwf q (List.mem_cons_of_mem c hq)
      by_cases hdec : isBetterThan c (Option.map Prod.snd best) = true
      · -- the first candidate displaces the running best
        obtain ⟨v, rfl⟩ : ∃ v, c = some v := by
          cases c with
          | none => simp [isBetterThan] at hdec
          | some v => exact ⟨v, rfl⟩
        have hvwf : v.wf := hlwf v (List.mem_cons_self _ _)
        have hstep : pickBestGo j best (some v :: rest) =
            pickBestGo (j + 1) (some (j, v)) rest := by
          show pickBestGo (j + 1) (pickBestStep j best (some v)) rest = _
          rw [pickBestStep, if_pos hdec]
          rfl
        have hbv : ∀ m b, best = some (m, b) → QVal.blt v b = true := by
          intro m b hb
          rw [hb] at hdec
          simpa [isBetterThan] using hdec
        rcases ih (j + 1) (some (j, v))
            (by rintro m b hb; obtain ⟨rfl, rfl⟩ : j = m ∧ v = b := by
                  simpa [Prod.ext_iff] using hb
                exact hvwf) hlwf' with ⟨hres, hnb⟩ | ⟨k, q, hk, hget, hres, hqwf, hmin, hearlier, hbeat⟩
        · refine Or.inr ⟨0, v, by simp, by simp, ?_, hvwf, ?_, ?_, hbv⟩
          · rw [hstep, hres]
            simp
          · intro k' q' hk'
            cases k' with
            | zero =>
                obtain rfl : v = q' := by simpa using hk'
                simp [QVal.blt]
            | succ k' =>
                have := hnb k' q' (by simpa using hk')
                simpa [isBetterThan] using this
          · intro k' q' hk' hget'
            omega
        · refine Or.inr ⟨k + 1, q, by simpa using Nat.succ_lt_succ hk,
            by simpa using hget, ?_, hqwf, ?_, ?_, ?_⟩
          · rw [hstep, hres]
            have hjk : j + 1 + k = j + (k + 1) := by omega
            rw [hjk]
          · intro k' q' hk'
            cases k' with
            | zero =>
                obtain rfl : v = q' := by simpa using hk'
                exact QVal.blt_asymm hqwf hvwf (hbeat j v rfl)
            | succ k' => exact hmin k' q' (by simpa using hk')
          · intro k' q' hk' hget'
            cases k' with
            | zero =>
                obtain rfl : v = q' := by simpa using hget'
                exact hbeat j v rfl
            | succ k' => exact hearlier k' q' (by omega) (by simpa using hget')
          · intro m b hb
            exact QVal.blt_trans hqwf hvwf (hbwf m b hb) (hbeat j v rfl) (hbv m b hb)
      · -- the first candidate is not strictly better: the best is kept
        rw [Bool.not_eq_true] at hdec
        have hstep : pickBestGo j best (c :: rest) = pickBestGo (j + 1) best rest := by
          show pickBestGo (j + 1) (pickBestStep j best c) rest = _
          rw [pickBestStep, hdec]
          simp
        rcases ih (j + 1) best hbwf hlwf'
          with ⟨hres, hnb⟩ | ⟨k, q, hk, hget, hres, hqwf, hmin, hearlier, hbeat⟩
        · refine Or.inl ⟨by rw [hstep, hres], ?_⟩
          intro k q' hkget
          cases k with
          | zero =>
              obtain rfl : c = some q' := by simpa using hkget
              exact hdec
          | succ k => exact hnb k q' (by simpa using hkget)
        · -- the winner was adopted inside the rest
          have hq0 : ∀ q' : QVal, c = some q' → QVal.blt q q' = true := by
            intro q' hc
            rw [hc] at hdec
            cases hbest : best with
            | none =>
                exfalso
                rw [hbest] at hdec
                simp [isBetterThan] at hdec
            | some mb =>
                have hq'wf : q'.wf := hlwf q' (hc ▸ List.mem_cons_self _ _)
                have hbwf2 : mb.2.wf := hbwf mb.1 mb.2 (by rw [hbest])
                have hfail : QVal.blt q' mb.2 = false := by
                  rw [hbest] at hdec
                  simpa [isBetterThan] using hdec
                exact QVal.blt_trans_not hqwf hbwf2 hq'wf
                  (hbeat mb.1 mb.2 (by rw [hbest])) hfail
          refine Or.inr ⟨k + 1, q, by simpa using Nat.succ_lt_succ hk,
            by simpa using hget, ?_, hqwf, ?_, ?_, hbeat⟩
          · rw [hstep, hres]
            have hjk : j + 1 + k = j + (k + 1) := by omega
            rw [hjk]
          · intro k' q' hk'
            cases k' with
            | zero =>
                have hc : c = some q' := by simpa using hk'
                exact QVal.blt_asymm hqwf (hlwf q' (hc ▸ List.mem_cons_self _ _))
                  (hq0 q' hc)
            | succ k' => exact hmin k' q' (by simpa using hk')
          · intro k' q' hk' hget'
            cases k' with
            | zero => exact hq0 q' (by simpa using hget')
            | succ k' => exact hearlier k' q' (by omega) (by simpa using hget')

/-- C8: the best-refinement reduction of `induceRule` runs sequentially in
feature-index iteration order after the parallel region (each task of the
parallel loop only writes its own feature's refinement object, which the
sequential loop then polls), so, as a pure function of the per-feature
candidates, two runs on identical inputs return the same result: if no
candidate exists the reduction returns nothing, and otherwise it returns the
earliest-iterated candidate that no candidate strictly beats — in particular,
on equal quality scores the earlier-iterated candidate is kept, since a later
candidate displaces the running best only when its score is strictly lower. -/
theorem pickBest_deterministic_earliest (cands : List (Option QVal))
    (hwf : ∀ q : QVal, some q ∈ cands → q.wf) :
    (pickBest cands = none → ∀ c ∈ cands, c = none) ∧
    (∀ j q, pickBest cands = some (j, q) →
      cands.get? j = some (some q) ∧
      (∀ k (q' : QVal), cands.get? k = some (some q') → QVal.blt q' q = false) ∧
      (∀ k (q' : QVal), k < j → cands.get? k = some (some q') →
        QVal.blt q q' = true)) := by
  have hstart : pickBest cands = pickBestGo 0 none cands := rfl
  rcases pickBestGo_spec cands 0 none (by intro m b h; cases h) hwf with
    ⟨hres, hnb⟩ | ⟨k, q0, hk, hget, hres, _, hmin, hearlier, _⟩
  · constructor
    · intro _ c hc
      cases c with
      | none => rfl
      | some q' =>
          obtain ⟨n, hn⟩ := List.get?_of_mem hc
          have := hnb n q' hn
          simp [isBetterThan] at this
    · intro j q hj
      rw [hstart, hres] at hj
      cases hj
  · constructor
    · intro h0
      rw [hstart, hres] at h0
      cases h0
    · intro j q hj
      rw [hstart, hres] at hj
      have hjk : 0 + k = j ∧ q0 = q := by
        simpa [Prod.ext_iff] using hj
      obtain ⟨rfl, rfl⟩ : k = j ∧ q0 = q := ⟨by omega, hjk.2⟩
      exact ⟨hget, hmin, fun k' q' hk' => hearlier k' q' hk'⟩

unseal Rat.add Rat.mul Rat.sub Rat.inv in
/-- Witness for C8 at a concrete input: among the candidates
`[-2, -2, -1]` (with a hole) the reduction keeps the earliest `-2`: it is
stored at position `0`, no candidate strictly beats it, and the
equal-scored candidate at position `1` does not displace it. -/
theorem pickBest_deterministic_earliest_witness :
    ([some ⟨2, 1⟩, some ⟨2, 1⟩, none, some ⟨1, 1⟩] :
        List (Option QVal)).get? 0 = some (some ⟨2, 1⟩) ∧
      QVal.blt ⟨2, 1⟩ ⟨2, 1⟩ = false := by
  have h := (pickBest_deterministic_earliest
      [some ⟨2, 1⟩, some ⟨2, 1⟩, none, some ⟨1, 1⟩]
      (by
        intro q hq
        simp only [List.mem_cons, List.not_mem_nil, or_false,
          Option.some.injEq, reduceCtorEq, false_or] at hq
        rcases hq with rfl | rfl | rfl
        · exact ⟨by norm_num, by norm_num⟩
        · exact ⟨by norm_num, by norm_num⟩
        · exact ⟨by norm_num, by norm_num⟩)).2 0 ⟨2, 1⟩ (by decide)
  exact ⟨h.1, h.2.1 1 ⟨2, 1⟩ (by decide)⟩

/-- C5: the commit decision at the tail of `induceRule` returns
`(true, s)` — with `s` the best head's quality score — and appends the rule
to the model builder and applies its prediction to the statistics, if and
only if a best head was found whose score is strictly lower than
`currentQuality`; in every other case (no head, or score not strictly lower)
it returns `(false, currentQuality)` and leaves the model builder and the
committed statistics unchanged. -/
theorem induceRule_commit_iff (N T : ℕ) (indices : ℕ → ℕ) (isCov : ℕ → Bool)
    (bestHead : Option QVal) (conds : List RefinementM) (cq : QVal)
    (mb : ModelBuilderState) (st : LWStats) :
    ((induceRuleCommit N T indices isCov bestHead conds cq mb st).1.1 = true ↔
      ∃ h, bestHead = some h ∧ QVal.blt h cq = true) ∧
    (∀ h, bestHead = some h → QVal.blt h cq = true →
      induceRuleCommit N T indices isCov bestHead conds cq mb st =
        ((true, h), ⟨mb.rules ++ [(conds, h)]⟩,
          applyPrediction N T indices isCov st)) ∧
    ((induceRuleCommit N T indices isCov bestHead conds cq mb st).1.1 = false →
      induceRuleCommit N T indices isCov bestHead conds cq mb st =
        ((false, cq), mb, st)) := by
  cases bestHead with
  | none =>
      refine ⟨?_, ?_, ?_⟩
      · simp [induceRuleCommit]
      · intro h hh
        cases hh
      · intro _
        rfl
  | some h0 =>
      by_cases hlt : QVal.blt h0 cq = true
      · refine ⟨?_, ?_, ?_⟩
        · simp [induceRuleCommit, hlt]
        · intro h hh hblt
          obtain rfl := Option.some.inj hh
          simp [induceRuleCommit, hlt]
        · intro hfalse
          rw [show induceRuleCommit N T indices isCov (some h0) conds cq mb st =
              ((true, h0), ⟨mb.rules ++ [(conds, h0)]⟩,
                applyPrediction N T indices isCov st) from by
            simp [induceRuleCommit, hlt]] at hfalse
          cases hfalse
      · refine ⟨?_, ?_, ?_⟩
        · simp [induceRuleCommit, hlt]
        · intro h hh hblt
          obtain rfl := Option.some.inj hh
          exact absurd hblt hlt
        · intro _
          simp only [Bool.not_eq_true] at hlt
          simp [induceRuleCommit, hlt]

unseal Rat.add Rat.mul Rat.sub Rat.inv in
/-- Witness for C5 at a concrete input: a best head with score `-1` beats
`currentQuality = 0`, so the commit succeeds, the rule is appended to the
empty model builder and the prediction is applied to the sample state. -/
theorem induceRule_commit_iff_witness :
    induceRuleCommit 2 2 (fun u => u) (fun i => decide (i = 1)) (some ⟨1, 1⟩)
        [] QVal.zero ⟨[]⟩ sampleStats =
      ((true, ⟨1, 1⟩), ⟨[([], ⟨1, 1⟩)]⟩,
        applyPrediction 2 2 (fun u => u) (fun i => decide (i = 1)) sampleStats) :=
  (induceRule_commit_iff 2 2 (fun u => u) (fun i => decide (i = 1))
      (some ⟨1, 1⟩) [] QVal.zero ⟨[]⟩ sampleStats).2.1 ⟨1, 1⟩ rfl (by decide)

/-- `QVal.zero` (the driver's initial `currentQuality = 0`) is well-formed. -/
theorem QVal.zero_wf : QVal.zero.wf := ⟨le_refl 0, one_pos⟩

/-- `QVal.zero` represents the real score `0`. -/
theorem QVal.toReal_zero : QVal.zero.toReal = 0 := by
  simp [QVal.toReal, QVal.zero]

/-- Invariant of the driver loop: starting from any well-formed
`currentQuality`, every committed score is well-formed and strictly below
the incoming `currentQuality`, and the committed scores strictly decrease
in commit order. -/
theorem induceRulesLoop_scores_aux (inputs : List IterInput) :
    ∀ (cq : QVal) (nr nu : ℕ), cq.wf →
      (∀ it ∈ inputs, ∀ h : QVal, it.bestHead = some h → h.wf) →
      (∀ q ∈ (induceRulesLoop inputs cq nr nu).1,
        q.wf ∧ q.toReal < cq.toReal) ∧
      List.Chain' (fun a b : QVal => b.toReal < a.toReal)
        (induceRulesLoop inputs cq nr nu).1 := by
  induction inputs with
  | nil =>
      intro cq nr nu _ _
      exact ⟨fun q hq => by simp [induceRulesLoop] at hq,
        by simp [induceRulesLoop]⟩
  | cons it rest ih =>
      intro cq nr nu hcq hwf
      have hwfrest : ∀ it2 ∈ rest, ∀ h : QVal, it2.bestHead = some h → h.wf :=
        fun it2 hit2 => hwf it2 (List.mem_cons_of_mem it hit2)
      cases hstop : it.stop with
      | forceStop k =>
          refine ⟨fun q hq => ?_, ?_⟩
          · simp [induceRulesLoop, hstop] at hq
          · simp [induceRulesLoop, hstop]
      | cont =>
          cases hbh : it.bestHead with
          | none =>
              refine ⟨fun q hq => ?_, ?_⟩
              · simp [induceRulesLoop, hstop, hbh] at hq
              · simp [induceRulesLoop, hstop, hbh]
          | some h =>
              have hhwf : h.wf := hwf it (List.mem_cons_self _ _) h hbh
              by_cases hblt : QVal.blt h cq = true
              · have hlist : (induceRulesLoop (it :: rest) cq nr nu).1 =
                    h :: (induceRulesLoop rest h (nr + 1) nu).1 := by
                  simp [induceRulesLoop, hstop, hbh, hblt]
                have hih := ih h (nr + 1) nu hhwf hwfrest
                have hlt : h.toReal < cq.toReal :=
                  (QVal.blt_iff_toReal hhwf hcq).mp hblt
                refine ⟨fun q hq => ?_, ?_⟩
                · rw [hlist] at hq
                  rcases List.mem_cons.mp hq with rfl | hq
                  · exact ⟨hhwf, hlt⟩
                  · exact ⟨(hih.1 q hq).1, lt_trans (hih.1 q hq).2 hlt⟩
                · rw [hlist, List.chain'_cons']
                  exact ⟨fun b hb =>
                    (hih.1 b (List.mem_of_mem_head? hb)).2, hih.2⟩
              · simp only [Bool.not_eq_true] at hblt
                refine ⟨fun q hq => ?_, ?_⟩
                · simp [induceRulesLoop, hstop, hbh, hblt] at hq
                · simp [induceRulesLoop, hstop, hbh, hblt]
      | storeStop k =>
          cases hbh : it.bestHead with
          | none =>
              refine ⟨fun q hq => ?_, ?_⟩
              · simp [induceRulesLoop, hstop, hbh] at hq
              · simp [induceRulesLoop, hstop, hbh]
          | some h =>
              have hhwf : h.wf := hwf it (List.mem_cons_self _ _) h hbh
              by_cases hblt : QVal.blt h cq = true
              · have hlist : (induceRulesLoop (it :: rest) cq nr nu).1 =
                    h :: (induceRulesLoop rest h (nr + 1)
                      (if nu = 0 then k else nu)).1 := by
                  simp [induceRulesLoop, hstop, hbh, hblt]
                have hih := ih h (nr + 1) (if nu = 0 then k else nu) hhwf hwfrest
                have hlt : h.toReal < cq.toReal :=
                  (QVal.blt_iff_toReal hhwf hcq).mp hblt
                refine ⟨fun q hq => ?_, ?_⟩
                · rw [hlist] at hq
                  rcases List.mem_cons.mp hq with rfl | hq
                  · exact ⟨hhwf, hlt⟩
                  · exact ⟨(hih.1 q hq).1, lt_trans (hih.1 q hq).2 hlt⟩
                · rw [hlist, List.chain'_cons']
                  exact ⟨fun b hb =>
                    (hih.1 b (List.mem_of_mem_head? hb)).2, hih.2⟩
              · simp only [Bool.not_eq_true] at hblt
                refine ⟨fun q hq => ?_, ?_⟩
                · simp [induceRulesLoop, hstop, hbh, hblt] at hq
                · simp [induceRulesLoop, hstop, hbh, hblt]

/-- C10: the driver initialises `currentQuality` to `0` and a rule is
committed only when its score is strictly lower than `currentQuality`, so
(whenever the per-iteration heads are well-formed score representations)
every committed rule's overall quality score is strictly negative — a
nonzero absolute Pearson correlation — and the committed scores strictly
decrease in commit order. -/
theorem committed_scores_negative_and_decreasing (inputs : List IterInput)
    (nr nu : ℕ)
    (hwf : ∀ it ∈ inputs, ∀ h : QVal, it.bestHead = some h → h.wf) :
    (∀ q ∈ (induceRulesLoop inputs QVal.zero nr nu).1,
      q.wf ∧ q.toReal < 0) ∧
    List.Chain' (fun a b : QVal => b.toReal < a.toReal)
      (induceRulesLoop inputs QVal.zero nr nu).1 := by
  have h := induceRulesLoop_scores_aux inputs QVal.zero nr nu QVal.zero_wf hwf
  refine ⟨fun q hq => ⟨(h.1 q hq).1, ?_⟩, h.2⟩
  have hlt := (h.1 q hq).2
  rwa [QVal.toReal_zero] at hlt

unseal Rat.add Rat.mul Rat.sub Rat.inv in
/-- Witness for C10 at a concrete input: two iterations whose heads score
`-1` and then `-2` both commit; the second committed score is well-formed
and strictly negative. -/
theorem committed_scores_negative_and_decreasing_witness :
    QVal.wf ⟨2, 1⟩ ∧ (⟨2, 1⟩ : QVal).toReal < 0 :=
  (committed_scores_negative_and_decreasing
      [⟨StopAction.cont, some ⟨1, 1⟩⟩, ⟨StopAction.cont, some ⟨2, 1⟩⟩] 1 0
      (by
        intro it hit h hh
        simp only [List.mem_cons, List.not_mem_nil, or_false] at hit
        rcases hit with rfl | rfl
        · obtain rfl := Option.some.inj hh
          exact ⟨by norm_num, by norm_num⟩
        · obtain rfl := Option.some.inj hh
          exact ⟨by norm_num, by norm_num⟩)).1 ⟨2, 1⟩ (by decide)

end SyndromeLearner
